import Mathlib

/-!
Verification development for the go-imap server-side parser.

The definitions below are a shallow embedding of the Go sources:
byte strings become `List Char` (the wire format is ASCII), the
`Parser` struct becomes a record that is threaded explicitly, the
`error` slot becomes `Option PErr`, and the connection (the buffered
reader plus the continuation writer) becomes the `stream` field and an
ordered `events` log.  Go runtime panics (out-of-range slice indexing,
bad `advance` counts) are modelled by a `crashed` flag.  Functions keep
their source names.
-/

set_option maxHeartbeats 2000000
set_option maxRecDepth 10000

namespace GoImap

/-- Error values stored in the parser's sticky error slot.  They mirror the
`error` values the Go code can place there: the named `ProtocolError`
constants, the formatted protocol errors (whose message text is summarised
by the constructor and its payload), and `io.EOF` as surfaced by
`bufio.Reader.ReadString` when no newline is found. -/
inductive PErr where
  | lineTooShort
  | seqNoOutOfBounds
  | eofErr
  | invalidToken (tokenType : List Char) (context : List Char)
  | typeMismatch (expected : List Char) (context : List Char)
  | expectMismatch (expected : List Char) (got : List Char)
  | invalidSearchKey
  | invalidPartSpecifier
  | unknownFlag (f : List Char)
  | dateParseError
  deriving DecidableEq, Repr

/-- Observable I/O events, in order: continuation prompts written to the
peer (`Conn.Continuation`) and raw byte chunks consumed from the
connection stream. -/
inductive Ev where
  | prompt (msg : List Char)
  | bytes (bs : List Char)
  deriving DecidableEq, Repr

/-- The `Parser` struct.  `line`/`pos`/`isEOL`/`inSection`/`listDepth`/`err`
are the source fields; `stream` is the not-yet-buffered input of the
underlying connection, `events` the I/O log, and `crashed` records a Go
runtime panic.  The unused source fields `literal`/`literalSize` are
omitted, as is the 8000-byte buffered-line cap (no claim depends on it). -/
structure Parser where
  line : List Char
  pos : Nat
  isEOL : Bool
  inSection : Bool
  listDepth : Int
  err : Option PErr
  stream : List Char
  events : List Ev
  crashed : Bool
  deriving DecidableEq, Repr

namespace Parser

def Tail (p : Parser) : List Char :=
  p.line.drop p.pos

def Valid (p : Parser) : Bool :=
  p.err.isNone

def available (p : Parser) : Nat :=
  p.Tail.length

end Parser

/-- Splits the stream at the first newline, inclusive, reporting whether a
newline was found (`bufio.Reader.ReadString` returns the data read so far
together with `io.EOF` when the delimiter is missing). -/
def splitLine : List Char → List Char × List Char × Bool
  | [] => ([], [], false)
  | c :: cs =>
    if c = '\n' then ([c], cs, true)
    else
      let r := splitLine cs
      (c :: r.1, r.2.1, r.2.2)

namespace Parser

def readLine (p : Parser) : Parser :=
  let r := splitLine p.stream
  { p with
    pos := 0
    line := r.1
    stream := r.2.1
    err := if r.2.2 then none else some .eofErr
    isEOL := if r.1.length > 0 then false else p.isEOL
    events := if r.1.isEmpty then p.events else p.events ++ [.bytes r.1] }

def ensure (p : Parser) (ct : Nat) : Parser :=
  if p.isEOL then
    let q := p.readLine
    if q.err.isSome then q
    else if q.available < ct then { q with err := some .lineTooShort } else q
  else
    if p.available < ct then { p with err := some .lineTooShort } else p

/-- The source panics on an advance count beyond the current line; that
panic is recorded in `crashed` (negative counts cannot arise with `Nat`). -/
def advance (p : Parser) (n : Nat) : Parser :=
  if n > p.available then { p with crashed := true }
  else { p with pos := p.pos + n }

def accept (p : Parser) (s : List Char) : Bool × Parser :=
  if p.err.isSome then (false, p)
  else
    let expected := s.map Char.toLower
    let l := expected.length
    let p1 := p.ensure l
    if p1.err.isSome then
      if p1.err = some .lineTooShort then (false, { p1 with err := none })
      else (false, p1)
    else
      let actual := (p1.Tail.take l).map Char.toLower
      if actual = expected then (true, p1.advance l)
      else (false, p1)

def Expect (p : Parser) (s : List Char) : Parser :=
  if p.err.isSome then p
  else
    let r := p.accept s
    let p1 := r.2
    if p1.err.isNone ∧ r.1 = false then
      { p1 with err := some (.expectMismatch s (p1.Tail.take s.length)) }
    else p1

def ReadSpace (p : Parser) : Parser :=
  p.Expect [' ']

def isValidDelimiter (p : Parser) (c : Char) : Bool :=
  if c = ' ' ∨ c = '\r' then true
  else if c = ']' then p.inSection
  else if c = ')' then decide (p.listDepth > 0)
  else false

def Peek (p : Parser) : Char × Parser :=
  let q := p.ensure 1
  (q.Tail.headD (Char.ofNat 0), q)

def DiscardLine (p : Parser) : Parser :=
  { p with err := none, isEOL := true }

def ReadEOL (p : Parser) : Parser :=
  let q := p.Expect ('\r' :: '\n' :: [])
  if q.err.isNone then { q with isEOL := true } else q

end Parser

/-- The `atomSpecials` table: ASCII control bytes plus the special set used
by the source (which adds `[` to the RFC set). -/
def atomSpecial (c : Char) : Bool :=
  decide (c.toNat < 0x20) ||
    ('(' :: ')' :: '{' :: ' ' :: '%' :: '*' :: '"' :: '[' :: '\\' :: ']' :: '\x7F' :: []).contains c

/-- One step of the `ReadAtomWithExtra` scanning loop.  The first argument
is the not-yet-examined suffix of the current tail, `n` the index of its
head in the full tail, `flag` whether the atom began with a backslash.
`none` means the loop ran off the end of the line (the bounds check
`ensure(n+1)` fails, leaving a line-too-short error); `some (n, flag)`
means the loop stopped with `n` bytes accepted. -/
def atomScanAux (extra : List Char) : List Char → Nat → Bool → Option (Nat × Bool)
  | [], _, _ => none
  | c :: rest, n, flag =>
    if decide (c.toNat ≥ 0x80) || (atomSpecial c && !(extra.contains c)) then
      if c = '\\' ∧ n = 0 then atomScanAux extra rest 1 true
      else if c = '*' ∧ n = 1 ∧ flag = true then some (n + 1, flag)
      else some (n, flag)
    else atomScanAux extra rest (n + 1) flag

/-- Whether a byte is an ASCII letter, as tested by the source via
`c &= 0xDF; 'A' <= c && c <= 'Z'`. -/
def isAsciiLetter (c : Char) : Bool :=
  ('A' ≤ c ∧ c ≤ 'Z') ∨ ('a' ≤ c ∧ c ≤ 'z')

def toUpperA (c : Char) : Char :=
  if 'a' ≤ c ∧ c ≤ 'z' then Char.ofNat (c.toNat - 32) else c

def toLowerA (c : Char) : Char :=
  if 'A' ≤ c ∧ c ≤ 'Z' then Char.ofNat (c.toNat + 32) else c

def normChar (wantLower : Bool) (c : Char) : Char :=
  if isAsciiLetter c then (if wantLower then toLowerA c else toUpperA c) else c

def normalizeAux (isFlag : Bool) : Nat → List Char → List Char
  | _, [] => []
  | i, c :: rest => normChar (isFlag ∧ i ≥ 2) c :: normalizeAux isFlag (i + 1) rest

/-- The source's `normalize`: non-flag atoms are upper-cased; flag atoms
(leading backslash) get one capital after the backslash and lower case
from the third byte on.  The source's two passes (change detection, then
rewrite) collapse to this per-byte map. -/
def normalize (atom : List Char) : List Char :=
  normalizeAux (atom.head? = some '\\') 0 atom

namespace Parser

def ReadAtomWithExtra (p : Parser) (extra : List Char) : List Char × Parser :=
  let p1 := p.ensure 1
  if p1.err.isSome then ([], p1)
  else
    let data := p1.Tail
    match atomScanAux extra data 0 false with
    | none => ([], { p1 with err := some .lineTooShort })
    | some r =>
      let n := r.1
      let flag := r.2
      if n < 2 ∧ (n = 0 ∨ flag = true) then
        ([], { p1 with err := some (.invalidToken ("atom".toList) data) })
      else
        match data.get? n with
        | none => ([], { p1 with crashed := true })
        | some d =>
          if ¬ p1.isValidDelimiter d then
            ([], { p1 with err := some (.invalidToken ("atom".toList) data) })
          else
            let bs := data.take n
            (if flag then normalize bs else bs, p1.advance n)

def ReadAtom (p : Parser) : List Char × Parser :=
  p.ReadAtomWithExtra []

end Parser

/-- Numeric value of a digit string, as computed by `strconv.Atoi` on an
all-digit input.  The 64-bit range check of `Atoi` is not modelled (the
machine `int` is embedded as unbounded `Int`). -/
def digitsToNat (ds : List Char) : Nat :=
  ds.foldl (fun acc c => 10 * acc + (c.toNat - 48)) 0

namespace Parser

/-- `ReadInt`.  The source captures `data := p.Tail()` once and indexes it
while calling `ensure` on the evolving state; with a loaded line the two
views agree.  `k` is where the digit run ends; the three branches are the
loop stopping at a non-digit, the bounds check failing (line too short),
and the source indexing `data[n]` past its end (a panic, possible only
when `ensure` swapped in a fresh longer line). -/
def ReadInt (p : Parser) : Int × Parser :=
  let data := p.Tail
  let p1 := p.ensure 1
  if p1.err.isSome then (0, p1)
  else
    let k := (data.takeWhile Char.isDigit).length
    if k < data.length ∧ k < p1.available then
      if k < 1 then (0, { p1 with err := some (.invalidToken ("integer".toList) data) })
      else ((digitsToNat (data.take k) : Int), p1.advance k)
    else if p1.available ≤ k ∧ p1.available ≤ data.length then
      (0, { p1 with err := some .lineTooShort })
    else
      (0, { p1 with crashed := true })

end Parser

/-- Result of scanning a quoted string from the byte after the opening
quote: the unescaped content and the full-tail index of the closing quote,
or the failure the source produces while scanning. -/
inductive QSRes where
  | ok (content : List Char) (nClose : Nat)
  | badEscape (c : Char)
  | short
  | crash
  deriving DecidableEq, Repr

/-- Scanning loop of `ReadQuotedString`.  The argument list is the suffix
of the tail starting at index `n`; escapes of backslash and quote drop the
backslash, any other escape is malformed.  `crash` is the source indexing
`data[n+1]` when the backslash is the last byte of the line (its bounds
check only covers `n+1` bytes). -/
def qsScan : List Char → Nat → QSRes
  | [], _ => .short
  | c :: rest, n =>
    if c = '"' then .ok [] n
    else if c = '\\' then
      match rest with
      | [] => .crash
      | e :: rest2 =>
        if e = '\\' ∨ e = '"' then
          match qsScan rest2 (n + 2) with
          | .ok content m => .ok (e :: content) m
          | r => r
        else .badEscape e
    else
      match qsScan rest (n + 1) with
      | .ok content m => .ok (c :: content) m
      | r => r

namespace Parser

def ReadQuotedString (p : Parser) : List Char × Parser :=
  let pk := p.Peek
  if pk.1 ≠ '"' then
    ([], { pk.2 with err := some (.typeMismatch ("quoted string".toList) pk.2.Tail) })
  else
    let p1 := pk.2.ensure 2
    if p1.err.isSome then ([], p1)
    else
      let data := p1.Tail
      match qsScan (data.drop 1) 1 with
      | .short => ([], { p1 with err := some .lineTooShort })
      | .crash => ([], { p1 with crashed := true })
      | .badEscape _ =>
        ([], { p1 with err := some (.invalidToken ("quoted string".toList) data) })
      | .ok content nClose =>
        -- after the closing quote the source checks the delimiter byte,
        -- indexing one past the quote without a bounds check
        match data.get? (nClose + 1) with
        | none => ([], { p1 with crashed := true })
        | some d =>
          if ¬ p1.isValidDelimiter d then
            ([], { p1 with err := some (.invalidToken ("atom".toList) data) })
          else (content, p1.advance (nClose + 1))

def ReadLiteralPrefix (p : Parser) : Int × Bool × Parser :=
  let p1 := p.Expect ['{']
  let ri := p1.ReadInt
  let ra := ri.2.accept ['+']
  let sync := ¬ ra.1
  let p2 := ra.2.Expect ('}' :: '\r' :: '\n' :: [])
  (ri.1, sync, p2)

/-- `ReadLiteral`, with the byte consumption of `ReadLiteralStream` plus
`ioutil.ReadAll` folded in: after the prefix parses, a synchronizing
literal first writes the continuation prompt, then the limited reader
hands over the next `size` raw bytes of the stream (fewer only if the
stream ends early, which `ReadAll` does not treat as an error). -/
def ReadLiteral (p : Parser) : List Char × Parser :=
  let r := p.ReadLiteralPrefix
  let size := r.1
  let sync := r.2.1
  let p1 := r.2.2
  if p1.err.isSome then ([], p1)
  else
    let p2 := if sync then { p1 with events := p1.events ++ [.prompt ("ready".toList)] } else p1
    let n := size.toNat
    let bs := p2.stream.take n
    (bs, { p2 with isEOL := true, stream := p2.stream.drop n, events := p2.events ++ [.bytes bs] })

def ReadStringWithExtra (p : Parser) (extra : List Char) : List Char × Parser :=
  let pk := p.Peek
  let c := pk.1
  let p1 := pk.2
  if p1.err.isSome then ([], p1)
  else if c = '{' then p1.ReadLiteral
  else if c = '"' then p1.ReadQuotedString
  else p1.ReadAtomWithExtra extra

def ReadString (p : Parser) : List Char × Parser :=
  p.ReadStringWithExtra []

def ReadAstring (p : Parser) : List Char × Parser :=
  p.ReadStringWithExtra [']']

def ReadListMailbox (p : Parser) : List Char × Parser :=
  p.ReadStringWithExtra ['%', '*']

def ReadListStart (p : Parser) : Parser :=
  let p1 := p.Expect ['(']
  if p1.err.isSome then p1 else { p1 with listDepth := p1.listDepth + 1 }

def ReadListEnd (p : Parser) : Parser :=
  let p1 := p.Expect [')']
  if p1.err.isSome then p1 else { p1 with listDepth := p1.listDepth - 1 }

/-- Loop of `ReadList`: read tokens until the reader fails, treat that
failure as end of list, and require the closing parenthesis.  `none`
mirrors the source returning a nil slice.  The fuel only bounds the
recursion; every caller passes enough for the loop to finish (a
successful token read always consumes at least one byte). -/
def ReadListAux (tok : Parser → List Char × Parser) :
    Nat → Parser → List (List Char) → Option (List (List Char)) × Parser
  | 0, p, _ => (none, p)
  | fuel + 1, p, acc =>
    let r := tok p
    if r.2.err.isSome then
      let p2 := { r.2 with err := none }
      let p3 := p2.ReadListEnd
      if p3.err.isSome then (none, p3)
      else (some acc, p3)
    else
      let p2 := r.2.ReadSpace
      ReadListAux tok fuel p2 (acc ++ [r.1])

def ReadList (p : Parser) (tok : Parser → List Char × Parser) (fuel : Nat) :
    Option (List (List Char)) × Parser :=
  let p1 := p.ReadListStart
  if p1.err.isSome then (none, p1)
  else ReadListAux tok fuel p1 []

def ReadAtomList (p : Parser) : Option (List (List Char)) × Parser :=
  p.ReadList (fun q => q.ReadAtom) (p.available + 2)

def readStringList (p : Parser) : Option (List (List Char)) × Parser :=
  p.ReadList (fun q => q.ReadString) (p.available + 2)

end Parser

/-- Sentinel for the IMAP star. -/
def Star : Int := -1

/-- A sequence range; `a`/`b` are the source's `r[0]`/`r[1]`. -/
structure SequenceRange where
  a : Int
  b : Int
  deriving DecidableEq, Repr

namespace SequenceRange

def Min (r : SequenceRange) : Int :=
  if r.a = Star then r.b
  else if r.b = Star then r.a
  else if r.a ≤ r.b then r.a else r.b

def Max (r : SequenceRange) : Int :=
  if r.b = Star ∨ r.a = Star then Star
  else if r.b ≥ r.a then r.b else r.a

end SequenceRange

structure SequenceSet where
  ranges : List SequenceRange
  deriving DecidableEq, Repr

def SequenceSet.Append (s : SequenceSet) (rng : SequenceRange) : SequenceSet :=
  { ranges := s.ranges ++ [rng] }

/-- The integers visited by `for i := lo; i <= hi; i++`. -/
def intRange (lo hi : Int) : List Int :=
  (List.range (hi + 1 - lo).toNat).map (fun (k : Nat) => lo + (k : Int))

/-- Body of the `Foreach` loop for one stored range: the star resolves to
the supplied maximum, and a literal maximum above the bound is clamped
down to it; the minimum endpoint is used as is. -/
def rangeSeq (rng : SequenceRange) (max : Int) : List Int :=
  let localMin := rng.Min
  let localMax := rng.Max
  let localMin := if localMin = Star then max else localMin
  let localMax := if localMax = Star ∨ localMax > max then max else localMax
  intRange localMin localMax

/-- The full sequence of integers `Foreach` hands to its callback, ranges
in stored order, overlaps not de-duplicated. -/
def SequenceSet.foreachVisits (s : SequenceSet) (max : Int) : List Int :=
  s.ranges.flatMap (fun r => rangeSeq r max)

/-- Runs a callback (returning `some e` to signal failure) over a visit
list, stopping at the first failure, as the `Foreach` loop does. -/
def runCb (cb : Int → Option (List Char)) : List Int → Option (List Char)
  | [] => none
  | i :: rest =>
    match cb i with
    | some e => some e
    | none => runCb cb rest

def SequenceSet.Foreach (s : SequenceSet) (max : Int) (cb : Int → Option (List Char)) :
    Option (List Char) :=
  runCb cb (s.foreachVisits max)

namespace Parser

def readSequenceRange (p : Parser) : SequenceRange × Parser :=
  let r1 := p.accept ['*']
  let first := if r1.1 then Star else (r1.2.ReadInt).1
  let pA :=
    if r1.1 then r1.2
    else
      let ri := r1.2.ReadInt
      if ri.1 < 1 then { ri.2 with err := some .seqNoOutOfBounds } else ri.2
  let rc := pA.accept [':']
  if rc.1 = false then (⟨first, first⟩, rc.2)
  else if rc.2.err.isSome then (⟨0, 0⟩, rc.2)
  else
    let r2 := rc.2.accept ['*']
    let second := if r2.1 then Star else (r2.2.ReadInt).1
    let pB :=
      if r2.1 then r2.2
      else
        let ri := r2.2.ReadInt
        if ri.1 < 1 then { ri.2 with err := some .seqNoOutOfBounds } else ri.2
    if pB.err.isSome then (⟨0, 0⟩, pB)
    else (⟨first, second⟩, pB)

/-- Loop of `ReadSequenceSet`; the fuel bounds the iteration count and is
always supplied large enough (each iteration consumes at least one byte). -/
def ReadSequenceSetAux : Nat → Parser → List SequenceRange → SequenceSet × Parser
  | 0, p, acc => (⟨acc⟩, p)
  | fuel + 1, p, acc =>
    let rr := p.readSequenceRange
    if rr.2.err.isSome then (⟨acc⟩, rr.2)
    else
      let acc2 := acc ++ [rr.1]
      let rc := rr.2.accept [',']
      if rc.1 then ReadSequenceSetAux fuel rc.2 acc2
      else (⟨acc2⟩, rc.2)

def ReadSequenceSet (p : Parser) : SequenceSet × Parser :=
  ReadSequenceSetAux (p.available + 2) p []

end Parser

/-- Flag constants from `message.go`; note the deleted flag is the
nonstandard string backslash-Trashed. -/
def FlagAnswered : List Char := "\\Answered".toList

def FlagFlagged : List Char := "\\Flagged".toList

def FlagDeleted : List Char := "\\Trashed".toList

def FlagSeen : List Char := "\\Seen".toList

def FlagDraft : List Char := "\\Draft".toList

def FlagRecent : List Char := "\\Recent".toList

def KnownFlags : List (List Char) :=
  [FlagAnswered, FlagFlagged, FlagDeleted, FlagSeen, FlagDraft, FlagRecent,
   "$MDNSent".toList, "$Forwarded".toList, "$SubmitPending".toList, "$Submitted".toList]

/-- The `isKnownFlag` lookup table. -/
def isKnownFlag (s : List Char) : Bool :=
  KnownFlags.contains s

namespace Parser

/-- The membership loop of `ReadFlagList`: known flags accumulate, the
first unknown one records an error and the flags gathered so far are
returned. -/
def flagLoop : List (List Char) → Parser → List (List Char) × Parser
  | [], p => ([], p)
  | s :: rest, p =>
    if isKnownFlag s then
      let r := flagLoop rest p
      (s :: r.1, r.2)
    else ([], { p with err := some (.unknownFlag s) })

def ReadFlagList (p : Parser) : Option (List (List Char)) × Parser :=
  let r := p.ReadAtomList
  if r.2.err.isSome then (none, r.2)
  else
    match r.1 with
    | none => (none, r.2)
    | some strs =>
      let fl := flagLoop strs r.2
      (some fl.1, fl.2)

end Parser

/-- A calendar date; `time.Unix(0,0)` (the zero value the readers return
on failure) is 1970-01-01. -/
structure DateVal where
  year : Nat
  month : Nat
  day : Nat
  deriving DecidableEq, Repr

def dateZero : DateVal := ⟨1970, 1, 1⟩

def monthAbbrevs : List (List Char) :=
  ["Jan".toList, "Feb".toList, "Mar".toList, "Apr".toList, "May".toList, "Jun".toList,
   "Jul".toList, "Aug".toList, "Sep".toList, "Oct".toList, "Nov".toList, "Dec".toList]

def monthIndex (s : List Char) : Option Nat :=
  match monthAbbrevs.findIdx? (fun m => m.map Char.toLower = s.map Char.toLower) with
  | some i => some (i + 1)
  | none => none

def readDay : List Char → Option (Nat × List Char)
  | c1 :: c2 :: r =>
    if c1.isDigit then
      if c2.isDigit then some (10 * (c1.toNat - 48) + (c2.toNat - 48), r)
      else some (c1.toNat - 48, c2 :: r)
    else none
  | c1 :: [] => if c1.isDigit then some (c1.toNat - 48, []) else none
  | [] => none

def isLeap (y : Nat) : Bool :=
  y % 4 = 0 ∧ (y % 100 ≠ 0 ∨ y % 400 = 0)

def daysIn (m y : Nat) : Nat :=
  if m = 2 then (if isLeap y then 29 else 28)
  else if m = 4 ∨ m = 6 ∨ m = 9 ∨ m = 11 then 30
  else 31

/-- Date parsing for the layout consumed by `ReadDate` (day with optional
space padding or a single digit, dash, case-insensitive three-letter month
abbreviation, dash, four-digit year, nothing after), modelling the Go
standard library's layout-driven parser including its day-range check. -/
def parseDate (s : List Char) : Option DateVal :=
  let s1 := match s with
    | ' ' :: r => r
    | _ => s
  match readDay s1 with
  | none => none
  | some dr =>
    match dr.2 with
    | '-' :: m1 :: m2 :: m3 :: '-' :: y1 :: y2 :: y3 :: y4 :: [] =>
      match monthIndex [m1, m2, m3] with
      | none => none
      | some m =>
        if y1.isDigit ∧ y2.isDigit ∧ y3.isDigit ∧ y4.isDigit then
          let y := digitsToNat [y1, y2, y3, y4]
          if 1 ≤ dr.1 ∧ dr.1 ≤ daysIn m y then some ⟨y, m, dr.1⟩ else none
        else none
    | _ => none

def Parser.ReadDate (p : Parser) : DateVal × Parser :=
  let r := p.ReadString
  if r.2.err.isSome then (dateZero, r.2)
  else
    match parseDate r.1 with
    | some d => (d, r.2)
    | none => (dateZero, { r.2 with err := some .dateParseError })

/-- Comparison/combination operator tags (`Op`); `inOp` is the source's
`OpIn`. -/
inductive Op where
  | and
  | or
  | not
  | equals
  | lt
  | gte
  | contains
  | inOp
  deriving DecidableEq, Repr

def FromField : String := "From"

def ToField : String := "To"

def CcField : String := "Cc"

def BccField : String := "Bcc"

def SubjectField : String := "Subject"

def TextField : String := "Text"

def BodyField : String := "Body"

def MSNField : String := "MSN"

def UIDField : String := "UID"

def SizeField : String := "Size"

def DateField : String := "Date"

def InternalDateField : String := "InternalDate"

/-- The query AST (`Term` and its implementations).  A Go interface value
may be nil, so composite nodes hold `Option Term` children; the parser
itself returns `Option Term`. -/
inductive Term where
  | all
  | bool (op : Op) (terms : List (Option Term))
  | unary (op : Op) (term : Option Term)
  | flag (flag : List Char) (present : Bool)
  | str (op : Op) (field : String) (s : List Char)
  | int (op : Op) (field : String) (i : Int)
  | set (op : Op) (field : String) (set : SequenceSet)
  | date (op : Op) (field : String) (d : DateVal)

/-- The `key.(*AllTerm)` type assertion: a non-nil Universal node. -/
def Term.isAll : Term → Bool
  | .all => true
  | _ => false

def isAllKey : Option Term → Bool
  | some t => t.isAll
  | none => false

/-- Body fetch modes (`bodyFetchMode` constants). -/
def FetchAll : List Char := []

def FetchText : List Char := "TEXT".toList

def FetchHeader : List Char := "HEADER".toList

def FetchHeaderFields : List Char := "HEADER.FIELDS".toList

def FetchHeaderFieldsNot : List Char := "HEADER.FIELDS.NOT".toList

/-- `BodyFetchAttribute`; `hasByteRange`/`byteRange` are the source's
`hasPartial`/`partial` fields. -/
structure BodyFetchAttribute where
  peek : Bool
  part : List Char
  mode : List Char
  headerList : Option (List (List Char))
  hasByteRange : Bool
  byteRange : Int × Int
  deriving DecidableEq, Repr

/-- Outcome of the dotted numeric part-path loop of `ReadBodyAttribute`. -/
inductive PartRes where
  | fail (p : Parser)
  | done (part : List Char) (p : Parser)
  | fuelOut

namespace Parser

/-- The part-path loop.  A digit run is appended as one dotted segment; a
dot is only tolerated (without being consumed) directly after a digit run,
so the next iteration stops the loop on the still-pending dot.  The fuel
only bounds the recursion and is always supplied large enough. -/
def partLoop : Nat → Parser → List Char → Bool → PartRes
  | 0, _, _, _ => .fuelOut
  | fuel + 1, p, part, num =>
    let pk := p.Peek
    let c := pk.1
    let p1 := pk.2
    if p1.err.isSome then .fail p1
    else if '1' ≤ c ∧ c ≤ '9' then
      let ri := p1.ReadInt
      if ri.2.err.isSome then .fail ri.2
      else
        let part2 := (if part.length > 0 then part ++ ['.'] else part) ++ Nat.toDigits 10 ri.1.toNat
        partLoop fuel ri.2 part2 true
    else if c = '.' ∧ num = true then partLoop fuel p1 part false
    else .done part p1

def readBodyAttributeStart (p : Parser) : Bool × Parser :=
  let p1 := p.Expect ("BODY".toList)
  let r := p1.accept (".PEEK".toList)
  let p2 := r.2.Expect ['[']
  (r.1, { p2 with inSection := true })

/-- Source name: `readBodyAttributePartial`. -/
def readBodyAttributeRange (p : Parser) : (Int × Int) × Parser :=
  let p1 := p.Expect ['<']
  let r1 := p1.ReadInt
  let p2 := r1.2.Expect ['.']
  let r2 := p2.ReadInt
  let p3 := r2.2.Expect ['>']
  ((r1.1, r2.1), p3)

def readBodyAttributeEnd (p : Parser) : (Bool × (Int × Int)) × Parser :=
  let p1 := p.Expect [']']
  if p1.err.isSome then ((false, (0, 0)), p1)
  else
    let p2 := { p1 with inSection := false }
    let pk := p2.Peek
    if pk.1 = '<' then
      let r := pk.2.readBodyAttributeRange
      ((true, r.1), r.2)
    else ((false, (0, 0)), pk.2)

/-- Assembles the attribute after the section mode, reading the closing
bracket and the optional byte-range suffix (the tail of the source's
`ReadBodyAttribute`, which returns the attribute even if the closing
bracket fails, leaving the error for the caller to inspect). -/
def finishBody (peek : Bool) (part mode : List Char) (hl : Option (List (List Char)))
    (p : Parser) : Option BodyFetchAttribute × Parser :=
  let re := p.readBodyAttributeEnd
  (some { peek := peek, part := part, mode := mode, headerList := hl,
          hasByteRange := re.1.1, byteRange := re.1.2 }, re.2)

def ReadBodyAttribute (p : Parser) : Option BodyFetchAttribute × Parser :=
  let rs := p.readBodyAttributeStart
  let peek := rs.1
  let p0 := rs.2
  if p0.err.isSome then (none, p0)
  else
    match p0.partLoop (2 * p0.line.length + 4) [] false with
    | .fuelOut => (none, p0)
    | .fail p1 => (none, p1)
    | .done part p1 =>
      let pk := p1.Peek
      if pk.2.err.isSome then (none, pk.2)
      else if pk.1 = '.' ∧ part = [] then
        (none, { pk.2 with err := some .invalidPartSpecifier })
      else
        let p2 := if pk.1 = '.' then pk.2.advance 1 else pk.2
        let pk2 := p2.Peek
        if pk2.2.err.isSome then (none, pk2.2)
        else
          let c := pk2.1
          let p3 := pk2.2
          if c ≠ ' ' ∧ c ≠ ']' then
            let ra := p3.ReadAtom
            let mode := ra.1
            let p4 := ra.2
            if mode = FetchText then finishBody peek part FetchText none p4
            else if mode = FetchHeader then finishBody peek part FetchHeader none p4
            else if mode = FetchHeaderFields then
              let p5 := p4.Expect [' ']
              let rl := p5.readStringList
              if rl.2.err.isSome then (none, rl.2)
              else finishBody peek part FetchHeaderFields rl.1 rl.2
            else if mode = FetchHeaderFieldsNot then
              let rl := p4.readStringList
              if rl.2.err.isSome then (none, rl.2)
              else finishBody peek part FetchHeaderFieldsNot rl.1 rl.2
            else (none, { p4 with err := some .invalidPartSpecifier })
          else finishBody peek part FetchAll none p3

/-- Collapses a parenthesized group: one element is returned directly,
otherwise an implicit AND node wraps the accumulated keys. -/
def finishGroup (acc : List (Option Term)) (p : Parser) : Option Term × Parser :=
  if acc.length = 1 then (acc.headD none, p)
  else (some (.bool .and acc), p)

end Parser

mutual

/-- The search-key grammar (`ReadSearchKey`).  Keywords are tried in the
source's if/else order with the case-insensitive prefix matcher `accept`;
the fuel bounds the recursion of the NOT/OR/group productions and of the
group loop (each group iteration both recurses and consumes). -/
def Parser.ReadSearchKey : Nat → Parser → Option Term × Parser
  | 0, p => (none, p)
  | fuel + 1, p =>
    if p.err.isSome then (none, p)
    else
    let r1 := p.accept ("all".toList)
    if r1.1 then (some .all, r1.2) else
    let r2 := r1.2.accept ("answered".toList)
    if r2.1 then (some (.flag FlagAnswered true), r2.2) else
    let r3 := r2.2.accept ("bcc".toList)
    if r3.1 then
      let pa := r3.2.ReadSpace
      let rs := pa.ReadAstring
      (some (.str .contains BccField rs.1), rs.2) else
    let r4 := r3.2.accept ("before".toList)
    if r4.1 then
      let pa := r4.2.ReadSpace
      let rd := pa.ReadDate
      (some (.date .lt InternalDateField rd.1), rd.2) else
    let r5 := r4.2.accept ("body".toList)
    if r5.1 then
      let pa := r5.2.ReadSpace
      let rs := pa.ReadString
      (some (.str .contains BodyField rs.1), rs.2) else
    let r6 := r5.2.accept ("cc".toList)
    if r6.1 then
      let pa := r6.2.ReadSpace
      let rs := pa.ReadAstring
      (some (.str .contains CcField rs.1), rs.2) else
    let r7 := r6.2.accept ("deleted".toList)
    if r7.1 then (some (.flag FlagDeleted true), r7.2) else
    let r8 := r7.2.accept ("flagged".toList)
    if r8.1 then (some (.flag FlagFlagged true), r8.2) else
    let r9 := r8.2.accept ("from".toList)
    if r9.1 then
      let pa := r9.2.ReadSpace
      let rs := pa.ReadAstring
      (some (.str .contains FromField rs.1), rs.2) else
    let r10 := r9.2.accept ("keyword".toList)
    if r10.1 then
      let pa := r10.2.ReadSpace
      let ra := pa.ReadAtom
      (some (.flag ra.1 true), ra.2) else
    let r11 := r10.2.accept ("new".toList)
    if r11.1 then
      (some (.bool .and [some (.flag FlagRecent true), some (.flag FlagSeen false)]), r11.2) else
    let r12 := r11.2.accept ("old".toList)
    if r12.1 then (some (.flag FlagRecent false), r12.2) else
    let r13 := r12.2.accept ("on".toList)
    if r13.1 then
      let pa := r13.2.ReadSpace
      let rd := pa.ReadDate
      (some (.date .equals InternalDateField rd.1), rd.2) else
    let r14 := r13.2.accept ("recent".toList)
    if r14.1 then (some (.flag FlagRecent true), r14.2) else
    let r15 := r14.2.accept ("seen".toList)
    if r15.1 then (some (.flag FlagSeen true), r15.2) else
    let r16 := r15.2.accept ("since".toList)
    if r16.1 then
      let pa := r16.2.ReadSpace
      let rd := pa.ReadDate
      (some (.date .gte InternalDateField rd.1), rd.2) else
    let r17 := r16.2.accept ("subject".toList)
    if r17.1 then
      let pa := r17.2.ReadSpace
      let rs := pa.ReadAstring
      (some (.str .contains SubjectField rs.1), rs.2) else
    let r18 := r17.2.accept ("text".toList)
    if r18.1 then
      let pa := r18.2.ReadSpace
      let rs := pa.ReadAstring
      (some (.str .contains TextField rs.1), rs.2) else
    let r19 := r18.2.accept ("to".toList)
    if r19.1 then
      let pa := r19.2.ReadSpace
      let rs := pa.ReadAstring
      (some (.str .contains ToField rs.1), rs.2) else
    let r20 := r19.2.accept ("unanswered".toList)
    if r20.1 then (some (.flag FlagAnswered false), r20.2) else
    let r21 := r20.2.accept ("undeleted".toList)
    if r21.1 then (some (.flag FlagDeleted false), r21.2) else
    let r22 := r21.2.accept ("unflagged".toList)
    if r22.1 then (some (.flag FlagFlagged false), r22.2) else
    let r23 := r22.2.accept ("unkeyword".toList)
    if r23.1 then
      let pa := r23.2.ReadSpace
      let ra := pa.ReadAtom
      (some (.flag ra.1 false), ra.2) else
    let r24 := r23.2.accept ("unseen".toList)
    if r24.1 then (some (.flag FlagSeen false), r24.2) else
    let r25 := r24.2.accept ("draft".toList)
    if r25.1 then (some (.flag FlagDraft true), r25.2) else
    let r26 := r25.2.accept ("header".toList)
    if r26.1 then
      let pa := r26.2.ReadSpace
      let rf := pa.ReadAstring
      let pb := rf.2.ReadSpace
      let rs := pb.ReadString
      (some (.str .contains ("header." ++ String.mk rf.1) rs.1), rs.2) else
    let r27 := r26.2.accept ("larger".toList)
    if r27.1 then
      let pa := r27.2.ReadSpace
      let ri := pa.ReadInt
      (some (.int .gte SizeField ri.1), ri.2) else
    let r28 := r27.2.accept ("not".toList)
    if r28.1 then
      let pa := r28.2.ReadSpace
      let rk := Parser.ReadSearchKey fuel pa
      (some (.unary .not rk.1), rk.2) else
    let r29 := r28.2.accept ("or".toList)
    if r29.1 then
      let pa := r29.2.ReadSpace
      let k1 := Parser.ReadSearchKey fuel pa
      let pb := k1.2.ReadSpace
      let k2 := Parser.ReadSearchKey fuel pb
      if isAllKey k1.1 then (k2.1, k2.2)
      else if isAllKey k2.1 then (k1.1, k2.2)
      else (some (.bool .or [k1.1, k2.1]), k2.2) else
    let r30 := r29.2.accept ("sentbefore".toList)
    if r30.1 then
      let pa := r30.2.ReadSpace
      let rd := pa.ReadDate
      (some (.date .lt DateField rd.1), rd.2) else
    let r31 := r30.2.accept ("senton".toList)
    if r31.1 then
      let pa := r31.2.ReadSpace
      let rd := pa.ReadDate
      (some (.date .equals DateField rd.1), rd.2) else
    let r32 := r31.2.accept ("sentsince".toList)
    if r32.1 then
      let pa := r32.2.ReadSpace
      let rd := pa.ReadDate
      (some (.date .gte DateField rd.1), rd.2) else
    let r33 := r32.2.accept ("smaller".toList)
    if r33.1 then
      let pa := r33.2.ReadSpace
      let ri := pa.ReadInt
      (some (.int .lt SizeField ri.1), ri.2) else
    let r34 := r33.2.accept ("uid".toList)
    if r34.1 then
      let pa := r34.2.ReadSpace
      let rs := pa.ReadSequenceSet
      (some (.set .inOp UIDField rs.1), rs.2) else
    let r35 := r34.2.accept ("undraft".toList)
    if r35.1 then (some (.flag FlagDraft false), r35.2) else
    let r36 := r35.2.accept ['(']
    if r36.1 then
      let rk := Parser.ReadSearchKey fuel r36.2
      Parser.searchGroupLoop fuel rk.2 [rk.1]
    else
      let rs := r36.2.ReadSequenceSet
      if rs.2.err.isSome then (none, rs.2)
      else (some (.set .inOp MSNField rs.1), rs.2)

/-- The accumulation loop of the parenthesized-group production. -/
def Parser.searchGroupLoop : Nat → Parser → List (Option Term) → Option Term × Parser
  | 0, p, _ => (none, p)
  | fuel + 1, p, acc =>
    let r := p.accept [')']
    if r.1 then Parser.finishGroup acc r.2
    else
      let p1 := r.2.ReadSpace
      let rk := Parser.ReadSearchKey fuel p1
      let acc2 := acc ++ [rk.1]
      if rk.2.err.isSome then Parser.finishGroup acc2 rk.2
      else Parser.searchGroupLoop fuel rk.2 acc2

end

section Lemmas

namespace Parser

theorem eta_err (p : Parser) (h : p.err = none) : { p with err := none } = p := by
  cases p
  simp_all

theorem Tail_pos_add (p : Parser) (n : Nat) :
    Parser.Tail { p with pos := p.pos + n } = p.Tail.drop n := by
  cases p
  simp [Parser.Tail, List.drop_drop]

theorem ensure_eq (p : Parser) (ct : Nat) (he : p.isEOL = false) :
    p.ensure ct = if p.available < ct then { p with err := some .lineTooShort } else p := by
  simp only [Parser.ensure, he]
  simp

theorem advance_eq (p : Parser) (n : Nat) (h : n ≤ p.available) :
    p.advance n = { p with pos := p.pos + n } := by
  simp only [Parser.advance]
  rw [if_neg (by omega)]

theorem readLine_nil (p : Parser) (h : p.stream = []) :
    p.readLine = { p with pos := 0, line := [], err := some .eofErr } := by
  simp only [Parser.readLine, h]
  simp [splitLine]

theorem ensure_eof (p : Parser) (ct : Nat) (he : p.isEOL = true) (hs : p.stream = []) :
    p.ensure ct = { p with pos := 0, line := [], err := some .eofErr } := by
  simp only [Parser.ensure, he, readLine_nil p hs]
  simp

theorem accept_eq (p : Parser) (s : List Char) (herr : p.err = none) (he : p.isEOL = false) :
    p.accept s =
      if (p.Tail.take s.length).map Char.toLower = s.map Char.toLower ∧ s.length ≤ p.available
      then (true, { p with pos := p.pos + s.length })
      else (false, p) := by
  simp only [Parser.accept, herr, Option.isSome_none, Bool.false_eq_true, if_false,
    List.length_map, ensure_eq p s.length he]
  by_cases hlt : p.available < s.length
  · rw [if_pos hlt]
    have hne : ¬ ((p.Tail.take s.length).map Char.toLower = s.map Char.toLower ∧
        s.length ≤ p.available) := by
      rintro ⟨-, hle⟩
      omega
    rw [if_neg hne]
    simp [eta_err p herr]
  · rw [if_neg hlt]
    simp only [herr, Option.isSome_none, Bool.false_eq_true, if_false]
    by_cases hcmp : (p.Tail.take s.length).map Char.toLower = s.map Char.toLower
    · rw [if_pos hcmp, if_pos ⟨hcmp, by omega⟩, advance_eq p s.length (by omega)]
      simp [herr]
    · rw [if_neg hcmp, if_neg (by tauto)]

end Parser

end Lemmas

namespace Parser

theorem Expect_eq (p : Parser) (s : List Char) (herr : p.err = none) (he : p.isEOL = false) :
    p.Expect s =
      if (p.Tail.take s.length).map Char.toLower = s.map Char.toLower ∧ s.length ≤ p.available
      then { p with pos := p.pos + s.length }
      else { p with err := some (.expectMismatch s (p.Tail.take s.length)) } := by
  simp only [Parser.Expect, herr, Option.isSome_none, Bool.false_eq_true, if_false,
    accept_eq p s herr he]
  by_cases hc : (p.Tail.take s.length).map Char.toLower = s.map Char.toLower ∧
      s.length ≤ p.available
  · rw [if_pos hc, if_pos hc]
    simp
  · rw [if_neg hc, if_neg hc]
    simp [herr]

theorem ReadSpace_eq (p : Parser) (t : List Char) (herr : p.err = none) (he : p.isEOL = false)
    (htail : p.Tail = ' ' :: t) :
    p.ReadSpace = { p with pos := p.pos + 1 } := by
  have hav : 1 ≤ p.available := by
    rw [Parser.available, htail]
    simp
  have hcond : ((p.Tail.take ([' '] : List Char).length).map Char.toLower =
      ([' '] : List Char).map Char.toLower ∧ ([' '] : List Char).length ≤ p.available) := by
    constructor
    · simp [htail]
    · exact hav
  simp only [Parser.ReadSpace, Expect_eq p [' '] herr he, if_pos hcond]
  rfl

theorem Peek_eq (p : Parser) (he : p.isEOL = false) :
    p.Peek = (p.Tail.headD (Char.ofNat 0),
      if p.available < 1 then { p with err := some .lineTooShort } else p) := by
  simp only [Parser.Peek, ensure_eq p 1 he]
  by_cases h1 : p.available < 1
  · rw [if_pos h1]
    rfl
  · rw [if_neg h1]

end Parser

theorem takeWhile_length_le (q : Char → Bool) (l : List Char) :
    (l.takeWhile q).length ≤ l.length :=
  (List.takeWhile_sublist q).length_le

/-- A run of bytes satisfying `q` followed by a byte that does not is
exactly what `takeWhile` keeps. -/
theorem takeWhile_run (q : Char → Bool) (t rest : List Char)
    (ht : ∀ c ∈ t, q c = true)
    (hr : ∀ c, rest.head? = some c → q c = false) :
    (t ++ rest).takeWhile q = t := by
  induction t with
  | nil =>
    simp only [List.nil_append]
    cases rest with
    | nil => rfl
    | cons c cs => simp [List.takeWhile_cons, hr c rfl]
  | cons a t ih =>
    have ha : q a = true := ht a (by simp)
    simp only [List.cons_append, List.takeWhile_cons, ha, if_true]
    rw [ih (fun c hc => ht c (by simp [hc]))]

namespace Parser

theorem available_def (p : Parser) : p.available = p.Tail.length := rfl

theorem ReadInt_eq (p : Parser) (herr : p.err = none) (he : p.isEOL = false) :
    p.ReadInt =
      (if (p.Tail.takeWhile Char.isDigit).length = p.available then
        (0, { p with err := some .lineTooShort })
      else if (p.Tail.takeWhile Char.isDigit).length = 0 then
        (0, { p with err := some (.invalidToken ("integer".toList) p.Tail) })
      else
        ((digitsToNat (p.Tail.take (p.Tail.takeWhile Char.isDigit).length) : Int),
          { p with pos := p.pos + (p.Tail.takeWhile Char.isDigit).length })) := by
  have hkle : (p.Tail.takeWhile Char.isDigit).length ≤ p.Tail.length :=
    takeWhile_length_le _ _
  have havl : p.available = p.Tail.length := rfl
  simp only [Parser.ReadInt, ensure_eq p 1 he]
  by_cases h0 : p.available < 1
  · rw [if_pos h0]
    have htl : p.Tail = [] := List.eq_nil_of_length_eq_zero (by omega)
    have hk0 : (p.Tail.takeWhile Char.isDigit).length = 0 := by
      rw [htl]
      rfl
    rw [if_pos (by omega : (p.Tail.takeWhile Char.isDigit).length = p.available)]
    simp
  · rw [if_neg h0]
    simp only [herr, Option.isSome_none, Bool.false_eq_true, if_false]
    by_cases hkav : (p.Tail.takeWhile Char.isDigit).length < p.Tail.length
    · rw [if_pos ⟨hkav, by omega⟩]
      rw [if_neg (by omega : ¬ (p.Tail.takeWhile Char.isDigit).length = p.available)]
      by_cases hk1 : (p.Tail.takeWhile Char.isDigit).length < 1
      · rw [if_pos hk1, if_pos (by omega)]
      · rw [if_neg hk1, if_neg (by omega)]
        rw [advance_eq p _ (by omega)]
        simp [herr]
    · rw [if_neg (by omega : ¬ ((p.Tail.takeWhile Char.isDigit).length < p.Tail.length ∧
        (p.Tail.takeWhile Char.isDigit).length < p.available))]
      rw [if_pos (⟨by omega, by omega⟩ : p.available ≤ (p.Tail.takeWhile Char.isDigit).length ∧
        p.available ≤ p.Tail.length)]
      rw [if_pos (by omega : (p.Tail.takeWhile Char.isDigit).length = p.available)]

end Parser

namespace Parser

theorem accept_self (p : Parser) (s t : List Char) (herr : p.err = none)
    (he : p.isEOL = false) (htail : p.Tail = s ++ t) :
    p.accept s = (true, { p with pos := p.pos + s.length }) := by
  rw [accept_eq p s herr he, if_pos]
  constructor
  · rw [htail, List.take_left]
  · rw [available_def, htail, List.length_append]
    omega

theorem Expect_self (p : Parser) (s t : List Char) (herr : p.err = none)
    (he : p.isEOL = false) (htail : p.Tail = s ++ t) :
    p.Expect s = { p with pos := p.pos + s.length } := by
  rw [Expect_eq p s herr he, if_pos]
  constructor
  · rw [htail, List.take_left]
  · rw [available_def, htail, List.length_append]
    omega

theorem accept_false_head (p : Parser) (c : Char) (t : List Char) (a : Char) (s2 : List Char)
    (herr : p.err = none) (he : p.isEOL = false) (htail : p.Tail = c :: t)
    (hne : Char.toLower c ≠ Char.toLower a) :
    p.accept (a :: s2) = (false, p) := by
  rw [accept_eq _ _ herr he, if_neg]
  rintro ⟨hm, -⟩
  rw [htail] at hm
  simp only [List.length_cons, List.take_succ_cons, List.map_cons, List.cons.injEq] at hm
  exact hne hm.1

theorem accept_false_second (p : Parser) (c1 c2 : Char) (t : List Char) (a1 a2 : Char)
    (s2 : List Char) (herr : p.err = none) (he : p.isEOL = false)
    (htail : p.Tail = c1 :: c2 :: t)
    (hne : Char.toLower c2 ≠ Char.toLower a2) :
    p.accept (a1 :: a2 :: s2) = (false, p) := by
  rw [accept_eq _ _ herr he, if_neg]
  rintro ⟨hm, -⟩
  rw [htail] at hm
  simp only [List.length_cons, List.take_succ_cons, List.map_cons, List.cons.injEq] at hm
  exact hne hm.2.1

end Parser

namespace Parser

/-- C4: in the OR production, when exactly one recursively parsed sub-key
resolves to the Universal (ALL) node, the whole OR key resolves to the
other sub-key directly, with no Boolean(OR) wrapper. -/
theorem C4_or_absorption (p : Parser) (rest : List Char) (fuel : Nat)
    (k1 k2 : Option Term) (q1 q3 : Parser)
    (herr : p.err = none) (he : p.isEOL = false)
    (htail : p.Tail = 'o' :: 'r' :: ' ' :: rest)
    (h1 : Parser.ReadSearchKey fuel { p with pos := p.pos + 3 } = (k1, q1))
    (h2 : Parser.ReadSearchKey fuel (q1.ReadSpace) = (k2, q3)) :
    (isAllKey k1 = true → isAllKey k2 = false →
      Parser.ReadSearchKey (fuel + 1) p = (k2, q3)) ∧
    (isAllKey k2 = true → isAllKey k1 = false →
      Parser.ReadSearchKey (fuel + 1) p = (k1, q3)) := by
  have hv1 : p.accept ['a', 'l', 'l'] = (false, p) :=
    accept_false_head p 'o' ('r' :: ' ' :: rest) 'a' ['l', 'l'] herr he htail (by decide)
  have hv2 : p.accept ['a', 'n', 's', 'w', 'e', 'r', 'e', 'd'] = (false, p) :=
    accept_false_head p 'o' ('r' :: ' ' :: rest) 'a' ['n', 's', 'w', 'e', 'r', 'e', 'd'] herr he htail (by decide)
  have hv3 : p.accept ['b', 'c', 'c'] = (false, p) :=
    accept_false_head p 'o' ('r' :: ' ' :: rest) 'b' ['c', 'c'] herr he htail (by decide)
  have hv4 : p.accept ['b', 'e', 'f', 'o', 'r', 'e'] = (false, p) :=
    accept_false_head p 'o' ('r' :: ' ' :: rest) 'b' ['e', 'f', 'o', 'r', 'e'] herr he htail (by decide)
  have hv5 : p.accept ['b', 'o', 'd', 'y'] = (false, p) :=
    accept_false_head p 'o' ('r' :: ' ' :: rest) 'b' ['o', 'd', 'y'] herr he htail (by decide)
  have hv6 : p.accept ['c', 'c'] = (false, p) :=
    accept_false_head p 'o' ('r' :: ' ' :: rest) 'c' ['c'] herr he htail (by decide)
  have hv7 : p.accept ['d', 'e', 'l', 'e', 't', 'e', 'd'] = (false, p) :=
    accept_false_head p 'o' ('r' :: ' ' :: rest) 'd' ['e', 'l', 'e', 't', 'e', 'd'] herr he htail (by decide)
  have hv8 : p.accept ['f', 'l', 'a', 'g', 'g', 'e', 'd'] = (false, p) :=
    accept_false_head p 'o' ('r' :: ' ' :: rest) 'f' ['l', 'a', 'g', 'g', 'e', 'd'] herr he htail (by decide)
  have hv9 : p.accept ['f', 'r', 'o', 'm'] = (false, p) :=
    accept_false_head p 'o' ('r' :: ' ' :: rest) 'f' ['r', 'o', 'm'] herr he htail (by decide)
  have hv10 : p.accept ['k', 'e', 'y', 'w', 'o', 'r', 'd'] = (false, p) :=
    accept_false_head p 'o' ('r' :: ' ' :: rest) 'k' ['e', 'y', 'w', 'o', 'r', 'd'] herr he htail (by decide)
  have hv11 : p.accept ['n', 'e', 'w'] = (false, p) :=
    accept_false_head p 'o' ('r' :: ' ' :: rest) 'n' ['e', 'w'] herr he htail (by decide)
  have hv12 : p.accept ['o', 'l', 'd'] = (false, p) :=
    accept_false_second p 'o' 'r' (' ' :: rest) 'o' 'l' ['d'] herr he htail (by decide)
  have hv13 : p.accept ['o', 'n'] = (false, p) :=
    accept_false_second p 'o' 'r' (' ' :: rest) 'o' 'n' [] herr he htail (by decide)
  have hv14 : p.accept ['r', 'e', 'c', 'e', 'n', 't'] = (false, p) :=
    accept_false_head p 'o' ('r' :: ' ' :: rest) 'r' ['e', 'c', 'e', 'n', 't'] herr he htail (by decide)
  have hv15 : p.accept ['s', 'e', 'e', 'n'] = (false, p) :=
    accept_false_head p 'o' ('r' :: ' ' :: rest) 's' ['e', 'e', 'n'] herr he htail (by decide)
  have hv16 : p.accept ['s', 'i', 'n', 'c', 'e'] = (false, p) :=
    accept_false_head p 'o' ('r' :: ' ' :: rest) 's' ['i', 'n', 'c', 'e'] herr he htail (by decide)
  have hv17 : p.accept ['s', 'u', 'b', 'j', 'e', 'c', 't'] = (false, p) :=
    accept_false_head p 'o' ('r' :: ' ' :: rest) 's' ['u', 'b', 'j', 'e', 'c', 't'] herr he htail (by decide)
  have hv18 : p.accept ['t', 'e', 'x', 't'] = (false, p) :=
    accept_false_head p 'o' ('r' :: ' ' :: rest) 't' ['e', 'x', 't'] herr he htail (by decide)
  have hv19 : p.accept ['t', 'o'] = (false, p) :=
    accept_false_head p 'o' ('r' :: ' ' :: rest) 't' ['o'] herr he htail (by decide)
  have hv20 : p.accept ['u', 'n', 'a', 'n', 's', 'w', 'e', 'r', 'e', 'd'] = (false, p) :=
    accept_false_head p 'o' ('r' :: ' ' :: rest) 'u' ['n', 'a', 'n', 's', 'w', 'e', 'r', 'e', 'd'] herr he htail (by decide)
  have hv21 : p.accept ['u', 'n', 'd', 'e', 'l', 'e', 't', 'e', 'd'] = (false, p) :=
    accept_false_head p 'o' ('r' :: ' ' :: rest) 'u' ['n', 'd', 'e', 'l', 'e', 't', 'e', 'd'] herr he htail (by decide)
  have hv22 : p.accept ['u', 'n', 'f', 'l', 'a', 'g', 'g', 'e', 'd'] = (false, p) :=
    accept_false_head p 'o' ('r' :: ' ' :: rest) 'u' ['n', 'f', 'l', 'a', 'g', 'g', 'e', 'd'] herr he htail (by decide)
  have hv23 : p.accept ['u', 'n', 'k', 'e', 'y', 'w', 'o', 'r', 'd'] = (false, p) :=
    accept_false_head p 'o' ('r' :: ' ' :: rest) 'u' ['n', 'k', 'e', 'y', 'w', 'o', 'r', 'd'] herr he htail (by decide)
  have hv24 : p.accept ['u', 'n', 's', 'e', 'e', 'n'] = (false, p) :=
    accept_false_head p 'o' ('r' :: ' ' :: rest) 'u' ['n', 's', 'e', 'e', 'n'] herr he htail (by decide)
  have hv25 : p.accept ['d', 'r', 'a', 'f', 't'] = (false, p) :=
    accept_false_head p 'o' ('r' :: ' ' :: rest) 'd' ['r', 'a', 'f', 't'] herr he htail (by decide)
  have hv26 : p.accept ['h', 'e', 'a', 'd', 'e', 'r'] = (false, p) :=
    accept_false_head p 'o' ('r' :: ' ' :: rest) 'h' ['e', 'a', 'd', 'e', 'r'] herr he htail (by decide)
  have hv27 : p.accept ['l', 'a', 'r', 'g', 'e', 'r'] = (false, p) :=
    accept_false_head p 'o' ('r' :: ' ' :: rest) 'l' ['a', 'r', 'g', 'e', 'r'] herr he htail (by decide)
  have hv28 : p.accept ['n', 'o', 't'] = (false, p) :=
    accept_false_head p 'o' ('r' :: ' ' :: rest) 'n' ['o', 't'] herr he htail (by decide)
  have hvOr : p.accept ['o', 'r'] = (true, { p with pos := p.pos + 2 }) := by
    have h := accept_self p (['o', 'r']) (' ' :: rest) herr he (by rw [htail]; rfl)
    exact h
  have hSpace : ({ p with pos := p.pos + 2 } : Parser).ReadSpace = { p with pos := p.pos + 3 } := by
    have ht2 : ({ p with pos := p.pos + 2 } : Parser).Tail = ' ' :: rest := by
      rw [Tail_pos_add, htail]
      try rfl
    have hsp := ReadSpace_eq ({ p with pos := p.pos + 2 }) rest herr he ht2
    rw [hsp]
  have main : Parser.ReadSearchKey (fuel + 1) p =
      (if isAllKey k1 = true then (k2, q3) else if isAllKey k2 = true then (k1, q3)
       else (some (.bool .or [k1, k2]), q3)) := by
    simp only [Parser.ReadSearchKey]
    simp only [herr, Option.isSome_none, Bool.false_eq_true, if_false]
    simp [hv1, hv2, hv3, hv4, hv5, hv6, hv7, hv8, hv9, hv10, hv11, hv12, hv13, hv14, hv15, hv16, hv17, hv18, hv19, hv20, hv21, hv22, hv23, hv24, hv25, hv26, hv27, hv28, hvOr, hSpace, h1, h2]
  constructor
  . intro hA hB
    rw [main, if_pos hA]
  . intro hA hB
    rw [main, if_neg (by simp [hB]), if_pos hA]

end Parser

/-- A parser state over one loaded line, cursor at the start, empty stream. -/
def mkP (s : String) : Parser :=
  { line := s.toList, pos := 0, isEOL := false, inSection := false, listDepth := 0,
    err := none, stream := [], events := [], crashed := false }

def pOr1 : Parser := mkP "or all seen\r\n"

def pOr2 : Parser := mkP "or seen all\r\n"

/-- Witness for C4: on the concrete inputs OR ALL SEEN and OR SEEN ALL the
parsed key is exactly the SEEN node. -/
theorem C4_or_absorption_witness :
    Parser.ReadSearchKey 2 pOr1 = (some (Term.flag FlagSeen true), { pOr1 with pos := 11 }) ∧
    Parser.ReadSearchKey 2 pOr2 = (some (Term.flag FlagSeen true), { pOr2 with pos := 11 }) := by
  constructor
  · exact (Parser.C4_or_absorption pOr1 (("all seen".toList) ++ ['\r', '\n']) 1 (some Term.all)
      (some (Term.flag FlagSeen true)) { pOr1 with pos := 6 } { pOr1 with pos := 11 }
      rfl rfl rfl rfl rfl).1 rfl rfl
  · exact (Parser.C4_or_absorption pOr2 (("seen all".toList) ++ ['\r', '\n']) 1
      (some (Term.flag FlagSeen true)) (some Term.all)
      { pOr2 with pos := 7 } { pOr2 with pos := 11 } rfl rfl rfl rfl rfl).2 rfl rfl

theorem toLower_eq_self (c : Char) (h : c.toNat < 65) : Char.toLower c = c := by
  unfold Char.toLower
  rw [if_neg]
  omega

theorem digit_toLower_ne_star (c : Char) (h : c.isDigit = true) :
    Char.toLower c ≠ Char.toLower '*' := by
  have hb : 48 ≤ c.toNat ∧ c.toNat ≤ 57 := by simpa [Char.isDigit] using h
  rw [toLower_eq_self c (by omega), show Char.toLower '*' = '*' from rfl]
  intro hc
  rw [hc] at hb
  simp at hb

theorem head?_take (n : Nat) (l : List Char) (h : 1 ≤ n) :
    (l.take n).head? = l.head? := by
  cases l with
  | nil => simp
  | cons c t =>
    obtain ⟨m, rfl⟩ : ∃ m, n = m + 1 := ⟨n - 1, by omega⟩
    simp [List.take_succ_cons]

/-- A single sequence-set endpoint as written on the wire: either the star
or a nonempty all-digit token with value `e ≥ 1`. -/
def endpointTok (s : List Char) (e : Int) : Prop :=
  (s = ['*'] ∧ e = Star) ∨
  (s ≠ [] ∧ (∀ c ∈ s, c.isDigit = true) ∧ (digitsToNat s : Int) = e ∧ 1 ≤ e)

namespace Parser

theorem Tail_pos_any (p : Parser) (X : Nat) :
    Parser.Tail { p with pos := X } = p.line.drop X := rfl

theorem drop_tail (p : Parser) (n : Nat) : p.line.drop (p.pos + n) = p.Tail.drop n := by
  rw [Parser.Tail, List.drop_drop]

/-- Reading one endpoint: the star branch accepts the star; the integer
branch rejects the star and reads the digit run. -/
theorem readEndpointStep (p : Parser) (s t : List Char) (e : Int)
    (herr : p.err = none) (heol : p.isEOL = false)
    (htok : endpointTok s e) (htail : p.Tail = s ++ t)
    (htne : t ≠ []) (htnd : ∀ c, t.head? = some c → c.isDigit = false) :
    (p.accept ['*'] = (true, { p with pos := p.pos + 1 }) ∧ s = ['*'] ∧ e = Star) ∨
    (p.accept ['*'] = (false, p) ∧
      p.ReadInt = (e, { p with pos := p.pos + s.length }) ∧ 1 ≤ e) := by
  rcases htok with ⟨hs, he⟩ | ⟨hne, hdig, hval, hge⟩
  · left
    refine ⟨?_, hs, he⟩
    have := accept_self p ['*'] t herr heol (by rw [htail, hs])
    simpa using this
  · right
    obtain ⟨c, s', rfl⟩ : ∃ c s', s = c :: s' := by
      cases s with
      | nil => exact absurd rfl hne
      | cons c s' => exact ⟨c, s', rfl⟩
    have hc : c.isDigit = true := hdig c (by simp)
    refine ⟨?_, ?_, hge⟩
    · exact accept_false_head p c (s' ++ t) '*' [] herr heol (by rw [htail]; rfl)
        (digit_toLower_ne_star c hc)
    · have hk : p.Tail.takeWhile Char.isDigit = c :: s' := by
        rw [htail]
        exact takeWhile_run _ _ _ hdig htnd
      have hlen : p.available = (c :: s').length + t.length := by
        rw [available_def, htail, List.length_append]
      rw [ReadInt_eq p herr heol, hk]
      rw [if_neg (by
        have := List.length_pos.mpr htne
        omega)]
      rw [if_neg (by simp)]
      rw [htail, show ((c :: s') ++ t : List Char).take (c :: s').length = c :: s' from
        List.take_left _ _]
      rw [hval]

end Parser

namespace Parser

theorem pair_state_eq (v : SequenceRange) (l : List Char) (X Y : Nat) (eol sec : Bool)
    (d : Int) (er : Option PErr) (st : List Char) (ev : List Ev) (cr : Bool) (h : X = Y) :
    ((v, ⟨l, X, eol, sec, d, er, st, ev, cr⟩) : SequenceRange × Parser) =
      (v, ⟨l, Y, eol, sec, d, er, st, ev, cr⟩) := by
  rw [h]

/-- Parsing the two-endpoint range written `s1:s2`: the stored pair keeps
the two endpoint values in written order (no reordering at parse time) and
the cursor ends after the second token, with no error recorded. -/
theorem readSequenceRange_tok (p : Parser) (s1 s2 rest : List Char) (e1 e2 : Int)
    (herr : p.err = none) (heol : p.isEOL = false)
    (h1 : endpointTok s1 e1) (h2 : endpointTok s2 e2)
    (htail : p.Tail = s1 ++ (':' :: (s2 ++ rest)))
    (hrne : rest ≠ []) (hrnd : ∀ c, rest.head? = some c → c.isDigit = false) :
    p.readSequenceRange =
      (⟨e1, e2⟩, { p with pos := p.pos + s1.length + 1 + s2.length }) := by
  have hstep1 := readEndpointStep p s1 (':' :: (s2 ++ rest)) e1 herr heol h1 htail
    (by simp) (by intro c hc; simp at hc; rw [← hc]; rfl)
  simp only [Parser.readSequenceRange]
  rcases hstep1 with ⟨hacc, hs1, he1⟩ | ⟨hacc, hri, hge⟩
  · subst hs1 he1
    have hColon : ({ p with pos := p.pos + 1 } : Parser).accept [':'] =
        (true, { p with pos := p.pos + 1 + 1 }) := by
      have ht : Parser.Tail { p with pos := p.pos + 1 } = [':'] ++ (s2 ++ rest) := by
        rw [Tail_pos_add p 1, htail]
        rfl
      simpa using accept_self { p with pos := p.pos + 1 } [':'] (s2 ++ rest) herr heol ht
    have htB : Parser.Tail { p with pos := p.pos + 1 + 1 } = s2 ++ rest := by
      rw [Tail_pos_any, show p.pos + 1 + 1 = p.pos + 2 from by omega, drop_tail p 2, htail]
      rfl
    have hstep2 := readEndpointStep { p with pos := p.pos + 1 + 1 } s2 rest e2 herr heol h2
      htB hrne hrnd
    rcases hstep2 with ⟨hacc2, hs2, he2⟩ | ⟨hacc2, hri2, hge2⟩
    · subst hs2 he2
      have hacc2c : ({ p with pos := p.pos + 1 + 1 } : Parser).accept ['*'] =
          (true, { p with pos := p.pos + 1 + 1 + 1 }) := by simpa using hacc2
      simp only [herr] at hacc hColon hacc2c
      simp only [hacc, Option.isSome_none, Bool.false_eq_true, Bool.true_eq_false,
        if_true, if_false, ite_true, ite_false]
      rw [hColon]
      simp only [Option.isSome_none, Bool.false_eq_true, Bool.true_eq_false,
        if_true, if_false, ite_true, ite_false]
      rw [hacc2c]
      simp only [Option.isSome_none, Bool.false_eq_true, Bool.true_eq_false,
        if_true, if_false, ite_true, ite_false]
      all_goals rw [herr]
      all_goals apply pair_state_eq
      all_goals try simp only [List.length_cons, List.length_nil]
      all_goals omega
    · have hri2c : ({ p with pos := p.pos + 1 + 1 } : Parser).ReadInt =
          (e2, { p with pos := p.pos + 1 + 1 + s2.length }) := by simpa using hri2
      simp only [herr] at hacc hColon hacc2 hri2c
      simp only [hacc, Option.isSome_none, Bool.false_eq_true, Bool.true_eq_false,
        if_true, if_false, ite_true, ite_false]
      rw [hColon]
      simp only [Option.isSome_none, Bool.false_eq_true, Bool.true_eq_false,
        if_true, if_false, ite_true, ite_false]
      rw [hacc2]
      simp only [Option.isSome_none, Bool.false_eq_true, Bool.true_eq_false,
        if_true, if_false, ite_true, ite_false]
      rw [hri2c]
      simp only [Option.isSome_none, Bool.false_eq_true, Bool.true_eq_false,
        if_true, if_false, ite_true, ite_false]
      rw [if_neg (by omega : ¬ e2 < 1)]
      simp only [Option.isSome_none, Bool.false_eq_true, if_false, ite_false]
      all_goals rw [herr]
      all_goals apply pair_state_eq
      all_goals try simp only [List.length_cons, List.length_nil]
      all_goals omega
  · have hColon : ({ p with pos := p.pos + s1.length } : Parser).accept [':'] =
        (true, { p with pos := p.pos + s1.length + 1 }) := by
      have ht : Parser.Tail { p with pos := p.pos + s1.length } = [':'] ++ (s2 ++ rest) := by
        rw [Tail_pos_add p s1.length, htail]
        simpa using List.drop_left s1 (':' :: (s2 ++ rest))
      simpa using accept_self { p with pos := p.pos + s1.length } [':'] (s2 ++ rest) herr heol ht
    have htB : Parser.Tail { p with pos := p.pos + s1.length + 1 } = s2 ++ rest := by
      rw [Tail_pos_any, show p.pos + s1.length + 1 = p.pos + (s1.length + 1) from by omega,
        drop_tail p (s1.length + 1), htail,
        show s1 ++ (':' :: (s2 ++ rest)) = (s1 ++ [':']) ++ (s2 ++ rest) from by simp,
        show s1.length + 1 = (s1 ++ [':']).length from by simp]
      exact List.drop_left _ _
    have hstep2 := readEndpointStep { p with pos := p.pos + s1.length + 1 } s2 rest e2 herr heol
      h2 htB hrne hrnd
    rcases hstep2 with ⟨hacc2, hs2, he2⟩ | ⟨hacc2, hri2, hge2⟩
    · subst hs2 he2
      have hacc2c : ({ p with pos := p.pos + s1.length + 1 } : Parser).accept ['*'] =
          (true, { p with pos := p.pos + s1.length + 1 + 1 }) := by simpa using hacc2
      simp only [herr] at hri hColon hacc2c
      simp only [hacc, hri, Option.isSome_none, Bool.false_eq_true, Bool.true_eq_false,
        if_true, if_false, ite_true, ite_false]
      rw [if_neg (by omega : ¬ e1 < 1)]
      rw [hColon]
      simp only [Option.isSome_none, Bool.false_eq_true, Bool.true_eq_false,
        if_true, if_false, ite_true, ite_false]
      rw [hacc2c]
      simp only [Option.isSome_none, Bool.false_eq_true, Bool.true_eq_false,
        if_true, if_false, ite_true, ite_false]
      all_goals rw [herr]
      all_goals apply pair_state_eq
      all_goals try simp only [List.length_cons, List.length_nil]
      all_goals omega
    · have hri2c : ({ p with pos := p.pos + s1.length + 1 } : Parser).ReadInt =
          (e2, { p with pos := p.pos + s1.length + 1 + s2.length }) := by simpa using hri2
      simp only [herr] at hri hColon hacc2 hri2c
      simp only [hacc, hri, Option.isSome_none, Bool.false_eq_true, Bool.true_eq_false,
        if_true, if_false, ite_true, ite_false]
      rw [if_neg (by omega : ¬ e1 < 1)]
      rw [hColon]
      simp only [Option.isSome_none, Bool.false_eq_true, Bool.true_eq_false,
        if_true, if_false, ite_true, ite_false]
      rw [hacc2]
      simp only [Option.isSome_none, Bool.false_eq_true, Bool.true_eq_false,
        if_true, if_false, ite_true, ite_false]
      rw [hri2c]
      simp only [Option.isSome_none, Bool.false_eq_true, Bool.true_eq_false,
        if_true, if_false, ite_true, ite_false]
      rw [if_neg (by omega : ¬ e2 < 1)]
      simp only [Option.isSome_none, Bool.false_eq_true, if_false, ite_false]
      all_goals rw [herr]
      all_goals apply pair_state_eq
      all_goals try simp only [List.length_cons, List.length_nil]
      all_goals omega

end Parser

namespace Parser

/-- C7: for every pair of valid endpoints (positive integer or star) the
ranges parsed from `a:b` and from `b:a` hold the endpoints in written
order, and have the same effective minimum, the same effective maximum,
and the same member sequence under `Foreach` for every bound. -/
theorem C7_range_symmetry (p q : Parser) (s1 s2 rest1 rest2 : List Char) (e1 e2 : Int)
    (hperr : p.err = none) (hpeol : p.isEOL = false)
    (hqerr : q.err = none) (hqeol : q.isEOL = false)
    (h1 : endpointTok s1 e1) (h2 : endpointTok s2 e2)
    (hpt : p.Tail = s1 ++ (':' :: (s2 ++ rest1)))
    (hqt : q.Tail = s2 ++ (':' :: (s1 ++ rest2)))
    (hr1ne : rest1 ≠ []) (hr1nd : ∀ c, rest1.head? = some c → c.isDigit = false)
    (hr2ne : rest2 ≠ []) (hr2nd : ∀ c, rest2.head? = some c → c.isDigit = false) :
    (p.readSequenceRange).1 = ⟨e1, e2⟩ ∧ (q.readSequenceRange).1 = ⟨e2, e1⟩ ∧
    (p.readSequenceRange).2.err = none ∧ (q.readSequenceRange).2.err = none ∧
    SequenceRange.Min ⟨e1, e2⟩ = SequenceRange.Min ⟨e2, e1⟩ ∧
    SequenceRange.Max ⟨e1, e2⟩ = SequenceRange.Max ⟨e2, e1⟩ ∧
    (∀ m, rangeSeq ⟨e1, e2⟩ m = rangeSeq ⟨e2, e1⟩ m) ∧
    (∀ m cb, SequenceSet.Foreach ⟨[⟨e1, e2⟩]⟩ m cb = SequenceSet.Foreach ⟨[⟨e2, e1⟩]⟩ m cb) := by
  have hp := readSequenceRange_tok p s1 s2 rest1 e1 e2 hperr hpeol h1 h2 hpt hr1ne hr1nd
  have hq := readSequenceRange_tok q s2 s1 rest2 e2 e1 hqerr hqeol h2 h1 hqt hr2ne hr2nd
  have hMin : SequenceRange.Min ⟨e1, e2⟩ = SequenceRange.Min ⟨e2, e1⟩ := by
    simp only [SequenceRange.Min, Star]
    split_ifs <;> omega
  have hMax : SequenceRange.Max ⟨e1, e2⟩ = SequenceRange.Max ⟨e2, e1⟩ := by
    simp only [SequenceRange.Max, Star]
    split_ifs <;> first | rfl | omega
  have hSeq : ∀ m, rangeSeq ⟨e1, e2⟩ m = rangeSeq ⟨e2, e1⟩ m := by
    intro m
    simp only [rangeSeq, hMin, hMax]
  refine ⟨by rw [hp], by rw [hq], by rw [hp]; exact hperr, by rw [hq]; exact hqerr, hMin, hMax, hSeq, ?_⟩
  intro m cb
  simp only [SequenceSet.Foreach, SequenceSet.foreachVisits, List.flatMap_cons,
    List.flatMap_nil, List.append_nil, hSeq m]

end Parser

def pRange1 : Parser := mkP "5:2\r\n"

def pRange2 : Parser := mkP "2:5\r\n"

/-- Witness for C7 at the ranges written 5:2 and 2:5. -/
theorem C7_range_symmetry_witness :
    (pRange1.readSequenceRange).1 = ⟨5, 2⟩ ∧
    (pRange2.readSequenceRange).1 = ⟨2, 5⟩ ∧
    rangeSeq ⟨5, 2⟩ 4 = rangeSeq ⟨2, 5⟩ 4 := by
  have h := Parser.C7_range_symmetry pRange1 pRange2 ['5'] ['2'] ['\r', '\n'] ['\r', '\n'] 5 2
    rfl rfl rfl rfl (by unfold endpointTok; right; exact ⟨by decide, by decide, by decide, by decide⟩)
    (by unfold endpointTok; right; exact ⟨by decide, by decide, by decide, by decide⟩)
    rfl rfl (by decide) (by decide) (by decide) (by decide)
  exact ⟨h.1, h.2.1, h.2.2.2.2.2.2.1 4⟩

/-- C10: the deleted flag constant is the nonstandard string
backslash-Trashed; DELETED and UNDELETED search keys carry it, and
`ReadFlagList` knows backslash-Trashed but rejects backslash-Deleted as an
unknown flag. -/
theorem C10_trashed_flag :
    FlagDeleted = ("\\Trashed".toList) ∧
    Parser.ReadSearchKey 1 (mkP "deleted\r\n") =
      (some (Term.flag FlagDeleted true), { mkP "deleted\r\n" with pos := 7 }) ∧
    Parser.ReadSearchKey 1 (mkP "undeleted\r\n") =
      (some (Term.flag FlagDeleted false), { mkP "undeleted\r\n" with pos := 9 }) ∧
    (Parser.ReadFlagList (mkP "(\\Trashed)\r\n")).1 = some [FlagDeleted] ∧
    (Parser.ReadFlagList (mkP "(\\Trashed)\r\n")).2.err = none ∧
    (Parser.ReadFlagList (mkP "(\\Deleted)\r\n")).1 = some [] ∧
    (Parser.ReadFlagList (mkP "(\\Deleted)\r\n")).2.err =
      some (PErr.unknownFlag ("\\Deleted".toList)) :=
  ⟨rfl, rfl, rfl, rfl, rfl, rfl, rfl⟩

/-- C5, the failing input: the sibling HEADER.FIELDS section parses (even
with an empty header list, which the source accepts), while the
HEADER.FIELDS.NOT branch misses the space `Expect` its sibling has, so the
well-formed section with a space before the list always fails with an
expected-parenthesis error, and the spaceless form cannot reach the list
either (the mode atom requires a space, carriage return or bracket as its
delimiter). -/
theorem C5_header_fields_not_rejected :
    (Parser.ReadBodyAttribute (mkP "BODY[HEADER.FIELDS (DATE)]\r\n")).1 =
      some { peek := false, part := [], mode := FetchHeaderFields,
             headerList := some ["DATE".toList], hasByteRange := false, byteRange := (0, 0) } ∧
    (Parser.ReadBodyAttribute (mkP "BODY[HEADER.FIELDS (DATE)]\r\n")).2.err = none ∧
    (Parser.ReadBodyAttribute (mkP "BODY[HEADER.FIELDS.NOT (DATE)]\r\n")).1 = none ∧
    (Parser.ReadBodyAttribute (mkP "BODY[HEADER.FIELDS.NOT (DATE)]\r\n")).2.err =
      some (PErr.expectMismatch ['('] [' ']) ∧
    (Parser.ReadBodyAttribute (mkP "BODY[HEADER.FIELDS.NOT(DATE)]\r\n")).1 = none ∧
    (Parser.ReadBodyAttribute (mkP "BODY[HEADER.FIELDS.NOT(DATE)]\r\n")).2.err.isSome = true ∧
    (Parser.ReadBodyAttribute (mkP "BODY[HEADER.FIELDS ()]\r\n")).1 =
      some { peek := false, part := [], mode := FetchHeaderFields, headerList := some [],
             hasByteRange := false, byteRange := (0, 0) } ∧
    (Parser.ReadBodyAttribute (mkP "BODY[HEADER.FIELDS ()]\r\n")).2.err = none :=
  ⟨rfl, rfl, rfl, rfl, rfl, rfl, rfl, rfl⟩

/-- The resolution rule exactly as claim C2 words it, for comparison: both
endpoints are resolved by substituting the star with the bound and
clamping ANY literal endpoint above the bound down to it, and every
integer between the resolved minimum and the resolved maximum is visited. -/
def claimResolve (r : SequenceRange) (m : Int) : Int × Int :=
  let ea := if r.a = Star then m else min r.a m
  let eb := if r.b = Star then m else min r.b m
  (min ea eb, max ea eb)

def claimMembers (s : SequenceSet) (m : Int) : List Int :=
  s.ranges.flatMap (fun r => intRange (claimResolve r m).1 (claimResolve r m).2)

/-- C2 counterexample: for the stored range 5:9 and bound 3, `Foreach`
invokes the callback on nothing (the minimum endpoint is never clamped),
while the claim's resolution rule demands a call at 3. -/
theorem C2_counterexample :
    SequenceSet.foreachVisits ⟨[⟨5, 9⟩]⟩ 3 = [] ∧
    claimMembers ⟨[⟨5, 9⟩]⟩ 3 = [3] ∧
    SequenceSet.foreachVisits ⟨[⟨5, 9⟩]⟩ 3 ≠ claimMembers ⟨[⟨5, 9⟩]⟩ 3 := by
  refine ⟨by decide, by decide, by decide⟩

/-- Effective lower bound used by `Foreach`: the star becomes the supplied
maximum; a literal minimum is NOT clamped. -/
def effLo (r : SequenceRange) (m : Int) : Int :=
  if r.Min = Star then m else r.Min

/-- Effective upper bound used by `Foreach`: the star becomes the supplied
maximum and a literal maximum above it is clamped down to it. -/
def effHi (r : SequenceRange) (m : Int) : Int :=
  if r.Max = Star ∨ r.Max > m then m else r.Max

theorem mem_intRange (lo hi i : Int) : i ∈ intRange lo hi ↔ lo ≤ i ∧ i ≤ hi := by
  rw [intRange]
  constructor
  · intro h
    obtain ⟨k, hk, rfl⟩ := List.mem_map.mp h
    have := List.mem_range.mp hk
    omega
  · rintro ⟨hl, hh⟩
    refine List.mem_map.mpr ⟨(i - lo).toNat, List.mem_range.mpr (by omega), by omega⟩

/-- C2 amended: `Foreach` visits, for each stored range in original list
order and without de-duplication, every integer from the resolved minimum
to the resolved maximum inclusive, where the star resolves to the bound
and only the literal MAXIMUM endpoint is clamped down to the bound; a
range whose resolved minimum exceeds the bound therefore contributes no
callbacks at all. -/
theorem C2_amended (rs : List SequenceRange) (m i : Int) :
    SequenceSet.foreachVisits ⟨rs⟩ m =
      rs.flatMap (fun r => intRange (effLo r m) (effHi r m)) ∧
    (i ∈ SequenceSet.foreachVisits ⟨rs⟩ m ↔ ∃ r ∈ rs, effLo r m ≤ i ∧ i ≤ effHi r m) ∧
    (∀ cb, SequenceSet.Foreach ⟨rs⟩ m cb = runCb cb (SequenceSet.foreachVisits ⟨rs⟩ m)) := by
  refine ⟨rfl, ?_, fun cb => rfl⟩
  simp only [SequenceSet.foreachVisits, List.mem_flatMap, rangeSeq, mem_intRange]
  rfl

/-- C3 counterexample: the atom `abc` does not begin with a backslash, and
`ReadAtom` returns it verbatim rather than upper-cased, because the source
applies `normalize` only when the scan saw a leading backslash. -/
theorem C3_counterexample :
    (Parser.ReadAtom (mkP "abc \r\n")).1 = ("abc".toList) ∧
    (Parser.ReadAtom (mkP "abc \r\n")).2.err = none ∧
    ("abc".toList) ≠ ("ABC".toList) :=
  ⟨rfl, rfl, by decide⟩

theorem notLetter_toUpperA (c : Char) (h : isAsciiLetter c = false) : toUpperA c = c := by
  simp only [isAsciiLetter, decide_eq_false_iff_not, not_or] at h
  exact if_neg h.2

theorem normChar_false_eq (c : Char) : normChar false c = toUpperA c := by
  unfold normChar
  by_cases h : isAsciiLetter c = true
  · simp [h]
  · rw [Bool.not_eq_true] at h
    simp [h, notLetter_toUpperA c h]

theorem notLetter_toLowerA (c : Char) (h : isAsciiLetter c = false) : toLowerA c = c := by
  simp only [isAsciiLetter, decide_eq_false_iff_not, not_or] at h
  exact if_neg h.1

theorem normChar_true_eq (c : Char) : normChar true c = toLowerA c := by
  unfold normChar
  by_cases h : isAsciiLetter c = true
  · simp [h]
  · rw [Bool.not_eq_true] at h
    simp [h, notLetter_toLowerA c h]

theorem normalizeAux_true_eq (l : List Char) :
    ∀ i, 2 ≤ i → normalizeAux true i l = l.map toLowerA := by
  induction l with
  | nil => intro i _; rfl
  | cons c rest ih =>
    intro i hi
    simp only [normalizeAux, List.map_cons]
    rw [ih (i + 1) (by omega)]
    have h2 : (decide (True ∧ i ≥ 2)) = true := decide_eq_true ⟨trivial, hi⟩
    rw [h2, normChar_true_eq]

/-- Title-case shape of `normalize` on a flag atom: the backslash is kept,
the first letter after it is upper-cased, everything later is lower-cased. -/
theorem normalize_flag_shape (c : Char) (rest : List Char) :
    normalize ('\\' :: c :: rest) = '\\' :: toUpperA c :: rest.map toLowerA := by
  have h0 : normalize ('\\' :: c :: rest) =
      normChar false '\\' :: normChar false c :: normalizeAux true 2 rest := rfl
  rw [h0, normalizeAux_true_eq rest 2 (le_refl 2)]
  simp only [normChar_false_eq]
  have hb : toUpperA '\\' = '\\' := by decide
  rw [hb]

theorem atomScanAux_flag_const (extra : List Char) :
    ∀ (l : List Char) (n : Nat) (flag : Bool) (m : Nat) (b : Bool),
      1 ≤ n → atomScanAux extra l n flag = some (m, b) → b = flag := by
  intro l
  induction l with
  | nil =>
    intro n flag m b _ h
    simp [atomScanAux] at h
  | cons c rest ih =>
    intro n flag m b hn h
    simp only [atomScanAux] at h
    split at h
    · split at h
      · next hc => exact absurd hc.2 (by omega)
      · split at h
        · simp only [Option.some.injEq, Prod.mk.injEq] at h
          exact h.2.symm
        · simp only [Option.some.injEq, Prod.mk.injEq] at h
          exact h.2.symm
    · exact ih (n + 1) flag m b (by omega) h

theorem atomScanAux_flag_head (extra : List Char) (l : List Char) (n : Nat)
    (h : atomScanAux extra l 0 false = some (n, true)) : l.head? = some '\\' := by
  cases l with
  | nil => simp [atomScanAux] at h
  | cons c rest =>
    simp only [atomScanAux] at h
    split at h
    · split at h
      · next hc => rw [hc.1]; rfl
      · split at h
        · next hc => exact absurd hc.2.1 (by omega)
        · simp at h
    · have := atomScanAux_flag_const extra rest 1 false n true (by omega) h
      simp at this

theorem atomScanAux_head_flag (extra : List Char) (rest : List Char) (n : Nat) (b : Bool)
    (hex : extra.contains '\\' = false)
    (h : atomScanAux extra ('\\' :: rest) 0 false = some (n, b)) : b = true := by
  simp only [atomScanAux] at h
  split at h
  · split at h
    · exact atomScanAux_flag_const extra rest 1 true n b (by omega) h
    · next hc => simp at hc
  · next hg =>
    rw [hex] at hg
    exact absurd (by decide) hg

/-- C3 amended: `ReadAtom` returns an atom that begins with a backslash
(exactly the case where the scan reports the flag bit) in title case via
`normalize`, and returns every other atom verbatim, with no upper-casing;
the consumed bytes and final position are the scanned length either way. -/
theorem C3_amended (p : Parser) (n : Nat) (flag : Bool) (d : Char)
    (herr : p.err = none) (heol : p.isEOL = false)
    (hscan : atomScanAux [] p.Tail 0 false = some (n, flag))
    (hok : ¬ (n < 2 ∧ (n = 0 ∨ flag = true)))
    (hd : p.Tail.get? n = some d)
    (hdel : p.isValidDelimiter d = true) :
    Parser.ReadAtom p =
      ((if flag then normalize (p.Tail.take n) else p.Tail.take n),
        { p with pos := p.pos + n }) ∧
    (flag = true ↔ p.Tail.head? = some '\\') ∧
    (∀ c rest, normalize ('\\' :: c :: rest) = '\\' :: toUpperA c :: rest.map toLowerA) := by
  have hlen : n < p.Tail.length := by
    by_contra hcon
    rw [List.get?_eq_none.mpr (by omega)] at hd
    exact Option.noConfusion hd
  refine ⟨?_, ⟨?_, ?_⟩, fun c rest => normalize_flag_shape c rest⟩
  · have hav1 : ¬ (p.available < 1) := by
      unfold Parser.available
      omega
    simp only [Parser.ReadAtom, Parser.ReadAtomWithExtra]
    rw [Parser.ensure_eq p 1 heol, if_neg hav1, herr]
    simp only [Option.isSome_none, Bool.false_eq_true, if_false]
    rw [hscan]
    simp only []
    rw [if_neg hok, hd]
    simp only []
    rw [if_neg (by simp [hdel])]
    rw [Parser.advance_eq p n (by unfold Parser.available; omega)]
    rw [herr]
  · intro hf
    subst hf
    exact atomScanAux_flag_head [] p.Tail n hscan
  · intro hh
    cases hTail : p.Tail with
    | nil =>
      rw [hTail] at hh
      exact Option.noConfusion hh
    | cons c rest =>
      rw [hTail] at hh
      have hc : c = '\\' := Option.some.inj hh
      rw [hTail, hc] at hscan
      exact atomScanAux_head_flag [] rest n flag (by decide) hscan

/-- Instance of the amended C3 theorem on the atom `xy` followed by a
space: the atom comes back verbatim and the cursor sits on the space. -/
theorem C3_amended_witness :
    Parser.ReadAtom (mkP "xy \r\n") = ("xy".toList, { mkP "xy \r\n" with pos := 2 }) ∧
    Parser.ReadAtom (mkP "\\seen \r\n") =
      ("\\Seen".toList, { mkP "\\seen \r\n" with pos := 5 }) := by
  constructor
  · exact (C3_amended (mkP "xy \r\n") 2 false ' ' rfl rfl (by decide) (by decide)
      (by decide) (by decide)).1
  · have h := (C3_amended (mkP "\\seen \r\n") 5 true ' ' rfl rfl (by decide) (by decide)
      (by decide) (by decide)).1
    rw [h]
    rfl

/-- A parser state sitting at end-of-line whose remaining stream has no
newline: `accept` must refill the line and hits end-of-file instead. -/
def p8 : Parser :=
  { line := [], pos := 0, isEOL := true, inSection := false, listDepth := 0,
    err := none, stream := "AB".toList, events := [], crashed := false }

/-- C8 counterexample: at an end-of-line state whose stream holds no
newline, a failed `accept` does not leave the parser unchanged with only a
transient line-too-short error cleared; the line refill records an
end-of-file error that sticks, and the state (line, stream, events)
changes. -/
theorem C8_counterexample :
    (p8.accept ['x']).1 = false ∧
    (p8.accept ['x']).2.err = some PErr.eofErr ∧
    (p8.accept ['x']).2 ≠ p8 :=
  ⟨rfl, rfl, by decide⟩

/-- C8 amended: on a state that is inside a line (not at end-of-line) and
error-free, `accept` compares the next `len(s)` bytes with `s` after
lower-casing both sides; on a match it returns true advancing exactly
`len(s)` bytes, and otherwise (mismatch, or fewer than `len(s)` bytes
left on the line, the transient line-too-short error being cleared)
it returns false with the state unchanged. -/
theorem C8_amended (p : Parser) (s : List Char) (herr : p.err = none) (heol : p.isEOL = false) :
    p.accept s =
      if (p.Tail.take s.length).map Char.toLower = s.map Char.toLower ∧ s.length ≤ p.available
      then (true, { p with pos := p.pos + s.length })
      else (false, p) :=
  Parser.accept_eq p s herr heol

/-- Instance of the amended C8 theorem: `a` matches `A` case-insensitively
and the cursor advances one byte; `x` against `AB` fails and the state is
returned untouched. -/
theorem C8_amended_witness :
    Parser.accept (mkP "AB\r\n") ['a'] = (true, { mkP "AB\r\n" with pos := 1 }) ∧
    Parser.accept (mkP "AB\r\n") ['x'] = (false, mkP "AB\r\n") := by
  constructor
  · rw [C8_amended (mkP "AB\r\n") ['a'] rfl rfl]
    rfl
  · rw [C8_amended (mkP "AB\r\n") ['x'] rfl rfl]
    rfl

/-- C9: an all-digit endpoint of value zero (below 1 and not the star)
makes `readSequenceRange` record the sequence-number-out-of-bounds error,
and the `ReadSequenceSet` loop then stops without appending the offending
range, whatever ranges had accumulated before it. -/
theorem C9_zero_endpoint (p : Parser) (s rest : List Char)
    (herr : p.err = none) (heol : p.isEOL = false)
    (hTail : p.Tail = s ++ rest)
    (hs : s ≠ []) (hdig : ∀ c ∈ s, c.isDigit = true)
    (hz : digitsToNat s = 0)
    (hrne : rest ≠ []) (hrnd : ∀ c, rest.head? = some c → c.isDigit = false) :
    p.readSequenceRange =
      (⟨0, 0⟩, { p with pos := p.pos + s.length, err := some PErr.seqNoOutOfBounds }) ∧
    (∀ fuel acc, Parser.ReadSequenceSetAux (fuel + 1) p acc =
      (⟨acc⟩, { p with pos := p.pos + s.length, err := some PErr.seqNoOutOfBounds })) ∧
    Parser.ReadSequenceSet p =
      (⟨[]⟩, { p with pos := p.pos + s.length, err := some PErr.seqNoOutOfBounds }) := by
  have hav : p.available = s.length + rest.length := by
    rw [Parser.available_def, hTail]
    simp
  have hrl : 1 ≤ rest.length := by
    cases rest with
    | nil => exact absurd rfl hrne
    | cons c cs => simp
  have hsl : s.length ≠ 0 := fun h => hs (List.length_eq_zero.mp h)
  obtain ⟨c, s', rfl⟩ : ∃ c s', s = c :: s' := by
    cases s with
    | nil => exact absurd rfl hs
    | cons c s' => exact ⟨c, s', rfl⟩
  have hstar : p.accept ['*'] = (false, p) :=
    Parser.accept_false_head p c (s' ++ rest) '*' [] herr heol
      (by rw [hTail]; rfl) (digit_toLower_ne_star c (hdig c (by simp)))
  have hri : p.ReadInt = ((0 : Int), { p with pos := p.pos + (c :: s').length }) := by
    rw [Parser.ReadInt_eq p herr heol, hTail,
      takeWhile_run Char.isDigit (c :: s') rest hdig hrnd]
    rw [if_neg (by omega : ¬ (c :: s').length = p.available),
      if_neg (by omega : ¬ (c :: s').length = 0)]
    rw [List.take_left]
    simp only [hz, Nat.cast_zero]
  have hmain : p.readSequenceRange =
      (⟨0, 0⟩,
        { p with pos := p.pos + (c :: s').length, err := some PErr.seqNoOutOfBounds }) := by
    simp only [Parser.readSequenceRange]
    simp only [herr] at hstar hri
    rw [hstar]
    simp only [Bool.false_eq_true, if_false, ite_false]
    rw [hri]
    simp only [Bool.false_eq_true, if_false, ite_false]
    rw [if_pos (by omega : (0 : Int) < 1)]
    rfl
  refine ⟨hmain, ?_, ?_⟩
  · intro fuel acc
    simp only [Parser.ReadSequenceSetAux]
    rw [hmain]
    rfl
  · show Parser.ReadSequenceSetAux (p.available + 2) p [] = _
    simp only [Parser.ReadSequenceSetAux]
    rw [hmain]
    rfl

/-- Instance of the C9 theorem on the set `0 ...`: the zero endpoint
triggers the out-of-bounds error and the returned set holds no range. -/
theorem C9_zero_endpoint_witness :
    Parser.ReadSequenceSet (mkP "0 \r\n") =
      (⟨[]⟩, { mkP "0 \r\n" with pos := 1, err := some PErr.seqNoOutOfBounds }) := by
  have h := C9_zero_endpoint (mkP "0 \r\n") ['0'] [' ', '\r', '\n'] rfl rfl (by decide)
    (by decide) (by decide) rfl (by decide) (by decide)
  exact h.2.2

theorem tail_after (p : Parser) (k : Nat) :
    Parser.Tail { p with pos := p.pos + k } = p.Tail.drop k := by
  cases p
  simp [Parser.Tail, List.drop_drop, Nat.add_comm]

theorem ReadLiteralPrefix_sync (p : Parser) (ds tl : List Char)
    (herr : p.err = none) (heol : p.isEOL = false)
    (hds : ds ≠ []) (hdig : ∀ c ∈ ds, c.isDigit = true)
    (htail : p.Tail = '{' :: (ds ++ ('}' :: '\r' :: '\n' :: tl))) :
    p.ReadLiteralPrefix =
      ((digitsToNat ds : Int), true, { p with pos := p.pos + 1 + ds.length + 3 }) := by
  have hdsl : ds.length ≠ 0 := fun h => hds (List.length_eq_zero.mp h)
  have h1 : p.Expect ['{'] = { p with pos := p.pos + 1 } := by
    have := Parser.Expect_self p ['{'] (ds ++ ('}' :: '\r' :: '\n' :: tl)) herr heol
      (by rw [htail]; rfl)
    simpa using this
  have ht1 : Parser.Tail { p with pos := p.pos + 1 } = ds ++ ('}' :: '\r' :: '\n' :: tl) := by
    rw [tail_after p 1, htail]
    rfl
  have hqe : ({ p with pos := p.pos + 1 } : Parser).err = none := herr
  have hqo : ({ p with pos := p.pos + 1 } : Parser).isEOL = false := heol
  have hav1 : ({ p with pos := p.pos + 1 } : Parser).available =
      ds.length + (3 + tl.length) := by
    rw [Parser.available_def, ht1]
    simp
    omega
  have hri : Parser.ReadInt { p with pos := p.pos + 1 } =
      ((digitsToNat ds : Int), { p with pos := p.pos + 1 + ds.length }) := by
    rw [Parser.ReadInt_eq _ hqe hqo, ht1,
      takeWhile_run Char.isDigit ds ('}' :: '\r' :: '\n' :: tl) hdig
        (by intro c hc; simp at hc; rw [← hc]; rfl)]
    rw [if_neg (by omega : ¬ ds.length = ({ p with pos := p.pos + 1 } : Parser).available),
      if_neg hdsl, List.take_left]
  have ht2 : Parser.Tail { p with pos := p.pos + 1 + ds.length } =
      '}' :: '\r' :: '\n' :: tl := by
    rw [show p.pos + 1 + ds.length = p.pos + (1 + ds.length) from by omega,
      tail_after p (1 + ds.length), htail,
      show 1 + ds.length = ds.length + 1 from by omega, List.drop_succ_cons,
      List.drop_left]
  have hq2e : ({ p with pos := p.pos + 1 + ds.length } : Parser).err = none := herr
  have hq2o : ({ p with pos := p.pos + 1 + ds.length } : Parser).isEOL = false := heol
  have hplus : ({ p with pos := p.pos + 1 + ds.length } : Parser).accept ['+'] =
      (false, { p with pos := p.pos + 1 + ds.length }) :=
    Parser.accept_false_head _ '}' ('\r' :: '\n' :: tl) '+' [] hq2e hq2o ht2 (by decide)
  have hbrace : ({ p with pos := p.pos + 1 + ds.length } : Parser).Expect
        ('}' :: '\r' :: '\n' :: []) =
      { p with pos := p.pos + 1 + ds.length + 3 } := by
    have := Parser.Expect_self { p with pos := p.pos + 1 + ds.length }
      ('}' :: '\r' :: '\n' :: []) tl hq2e hq2o (by rw [ht2]; rfl)
    simpa using this
  simp only [Parser.ReadLiteralPrefix]
  simp only [herr] at h1 hri hplus hbrace
  rw [h1, hri]
  simp only []
  rw [hplus]
  simp only []
  rw [hbrace, herr]
  rfl

theorem ReadLiteralPrefix_nonsync (p : Parser) (ds tl : List Char)
    (herr : p.err = none) (heol : p.isEOL = false)
    (hds : ds ≠ []) (hdig : ∀ c ∈ ds, c.isDigit = true)
    (htail : p.Tail = '{' :: (ds ++ ('+' :: '}' :: '\r' :: '\n' :: tl))) :
    p.ReadLiteralPrefix =
      ((digitsToNat ds : Int), false, { p with pos := p.pos + 1 + ds.length + 4 }) := by
  have hdsl : ds.length ≠ 0 := fun h => hds (List.length_eq_zero.mp h)
  have h1 : p.Expect ['{'] = { p with pos := p.pos + 1 } := by
    have := Parser.Expect_self p ['{'] (ds ++ ('+' :: '}' :: '\r' :: '\n' :: tl)) herr heol
      (by rw [htail]; rfl)
    simpa using this
  have ht1 : Parser.Tail { p with pos := p.pos + 1 } =
      ds ++ ('+' :: '}' :: '\r' :: '\n' :: tl) := by
    rw [tail_after p 1, htail]
    rfl
  have hqe : ({ p with pos := p.pos + 1 } : Parser).err = none := herr
  have hqo : ({ p with pos := p.pos + 1 } : Parser).isEOL = false := heol
  have hav1 : ({ p with pos := p.pos + 1 } : Parser).available =
      ds.length + (4 + tl.length) := by
    rw [Parser.available_def, ht1]
    simp
    omega
  have hri : Parser.ReadInt { p with pos := p.pos + 1 } =
      ((digitsToNat ds : Int), { p with pos := p.pos + 1 + ds.length }) := by
    rw [Parser.ReadInt_eq _ hqe hqo, ht1,
      takeWhile_run Char.isDigit ds ('+' :: '}' :: '\r' :: '\n' :: tl) hdig
        (by intro c hc; simp at hc; rw [← hc]; rfl)]
    rw [if_neg (by omega : ¬ ds.length = ({ p with pos := p.pos + 1 } : Parser).available),
      if_neg hdsl, List.take_left]
  have ht2 : Parser.Tail { p with pos := p.pos + 1 + ds.length } =
      '+' :: '}' :: '\r' :: '\n' :: tl := by
    rw [show p.pos + 1 + ds.length = p.pos + (1 + ds.length) from by omega,
      tail_after p (1 + ds.length), htail,
      show 1 + ds.length = ds.length + 1 from by omega, List.drop_succ_cons,
      List.drop_left]
  have hq2e : ({ p with pos := p.pos + 1 + ds.length } : Parser).err = none := herr
  have hq2o : ({ p with pos := p.pos + 1 + ds.length } : Parser).isEOL = false := heol
  have hplus : ({ p with pos := p.pos + 1 + ds.length } : Parser).accept ['+'] =
      (true, { p with pos := p.pos + 1 + ds.length + 1 }) := by
    have := Parser.accept_self { p with pos := p.pos + 1 + ds.length } ['+']
      ('}' :: '\r' :: '\n' :: tl) hq2e hq2o (by rw [ht2]; rfl)
    simpa using this
  have hq3e : ({ p with pos := p.pos + 1 + ds.length + 1 } : Parser).err = none := herr
  have hq3o : ({ p with pos := p.pos + 1 + ds.length + 1 } : Parser).isEOL = false := heol
  have ht3 : Parser.Tail { p with pos := p.pos + 1 + ds.length + 1 } =
      '}' :: '\r' :: '\n' :: tl := by
    rw [show p.pos + 1 + ds.length + 1 = p.pos + (ds.length + 1 + 1) from by omega,
      tail_after p (ds.length + 1 + 1), htail, List.drop_succ_cons,
      show ds ++ ('+' :: '}' :: '\r' :: '\n' :: tl) =
        (ds ++ ['+']) ++ ('}' :: '\r' :: '\n' :: tl) from by simp,
      show ds.length + 1 = (ds ++ ['+']).length from by simp]
    exact List.drop_left _ _
  have hbrace : ({ p with pos := p.pos + 1 + ds.length + 1 } : Parser).Expect
        ('}' :: '\r' :: '\n' :: []) =
      { p with pos := p.pos + 1 + ds.length + 4 } := by
    have := Parser.Expect_self { p with pos := p.pos + 1 + ds.length + 1 }
      ('}' :: '\r' :: '\n' :: []) tl hq3e hq3o (by rw [ht3]; rfl)
    simpa [show p.pos + 1 + ds.length + 1 + 3 = p.pos + 1 + ds.length + 4 from by omega]
      using this
  simp only [Parser.ReadLiteralPrefix]
  simp only [herr] at h1 hri hplus hbrace
  rw [h1, hri]
  simp only []
  rw [hplus]
  simp only []
  rw [hbrace, herr]
  rfl

/-- C6: literal framing.  For a synchronizing literal prefix (no plus
sign), `ReadLiteral` writes exactly one continuation prompt before the
literal bytes are pulled from the stream, and then hands over exactly the
announced byte count raw from the stream, whatever those bytes contain
(CR and LF included); for a non-synchronizing (plus-suffixed) prefix no
prompt is written and the same raw byte count is consumed. -/
theorem C6_literal_framing (p : Parser) (ds tl : List Char) (n : Nat)
    (herr : p.err = none) (heol : p.isEOL = false)
    (hds : ds ≠ []) (hdig : ∀ c ∈ ds, c.isDigit = true)
    (hn : digitsToNat ds = n) (hstream : n ≤ p.stream.length) :
    (p.Tail = '{' :: (ds ++ ('}' :: '\r' :: '\n' :: tl)) →
      Parser.ReadLiteral p =
        (p.stream.take n,
          { p with
              pos := p.pos + 1 + ds.length + 3
              isEOL := true
              stream := p.stream.drop n
              events := p.events ++
                [Ev.prompt ("ready".toList), Ev.bytes (p.stream.take n)] }) ∧
      (p.stream.take n).length = n) ∧
    (p.Tail = '{' :: (ds ++ ('+' :: '}' :: '\r' :: '\n' :: tl)) →
      Parser.ReadLiteral p =
        (p.stream.take n,
          { p with
              pos := p.pos + 1 + ds.length + 4
              isEOL := true
              stream := p.stream.drop n
              events := p.events ++ [Ev.bytes (p.stream.take n)] }) ∧
      (p.stream.take n).length = n) := by
  subst hn
  constructor
  · intro htail
    have hpre := ReadLiteralPrefix_sync p ds tl herr heol hds hdig htail
    refine ⟨?_, by rw [List.length_take]; omega⟩
    simp only [Parser.ReadLiteral]
    rw [hpre]
    simp [Int.toNat_natCast, List.append_assoc, herr]
  · intro htail
    have hpre := ReadLiteralPrefix_nonsync p ds tl herr heol hds hdig htail
    refine ⟨?_, by rw [List.length_take]; omega⟩
    simp only [Parser.ReadLiteral]
    rw [hpre]
    simp [Int.toNat_natCast, List.append_assoc, herr]

/-- Instance of the C6 theorem: literal prefixes of three bytes, with and
without the plus sign, against the stream `abc\r\nrest`: the sync form
prompts once then takes the three raw bytes, the non-sync form takes them
with no prompt, CR/LF in the literal included. -/
theorem C6_literal_framing_witness :
    Parser.ReadLiteral
      { mkP "{3}\r\n" with stream := "a\r\nZ".toList } =
      ("a\r\n".toList,
        { mkP "{3}\r\n" with
            pos := 5
            isEOL := true
            stream := ['Z']
            events := [Ev.prompt ("ready".toList), Ev.bytes ("a\r\n".toList)] }) ∧
    Parser.ReadLiteral
      { mkP "{3+}\r\n" with stream := "a\r\nZ".toList } =
      ("a\r\n".toList,
        { mkP "{3+}\r\n" with
            pos := 6
            isEOL := true
            stream := ['Z']
            events := [Ev.bytes ("a\r\n".toList)] }) := by
  constructor
  · have h := (C6_literal_framing
      { mkP "{3}\r\n" with stream := "a\r\nZ".toList } ['3'] [] 3
      rfl rfl (by decide) (by decide) rfl (by decide)).1 (by decide)
    rw [h.1]
    rfl
  · have h := (C6_literal_framing
      { mkP "{3+}\r\n" with stream := "a\r\nZ".toList } ['3'] [] 3
      rfl rfl (by decide) (by decide) rfl (by decide)).2 (by decide)
    rw [h.1]
    rfl

/-- A parser state carrying an error while sitting at end-of-line, with a
complete fresh line waiting in the stream. -/
def pc1 : Parser :=
  { line := [], pos := 0, isEOL := true, inSection := false, listDepth := 0,
    err := some (PErr.expectMismatch ['('] [' ']), stream := "abc \r\nx".toList,
    events := [], crashed := false }

/-- C1 counterexample: `ReadAtom` does not gate on the error slot before
calling `ensure`; at end-of-line the refill replaces the error with the
fresh read's nil result, so with an error pending the call returns a
non-empty atom, consumes input, and the unrelated read silently cleared
the error. -/
theorem C1_counterexample :
    pc1.err ≠ none ∧
    (Parser.ReadAtom pc1).1 = ("abc".toList) ∧
    (Parser.ReadAtom pc1).1 ≠ [] ∧
    (Parser.ReadAtom pc1).2.err = none ∧
    (Parser.ReadAtom pc1).2.pos = 3 :=
  ⟨by decide, rfl, by decide, rfl, rfl⟩

theorem ensure_sticky (q : Parser) (ct : Nat) (ho : q.isEOL = false)
    (hqe : q.err.isSome = true) :
    (q.ensure ct).err.isSome = true ∧ (q.ensure ct).pos = q.pos ∧
      (q.ensure ct).isEOL = false ∧ (q.ensure ct).Tail = q.Tail := by
  rw [Parser.ensure_eq q ct ho]
  split
  · exact ⟨rfl, rfl, ho, rfl⟩
  · exact ⟨hqe, rfl, ho, rfl⟩

/-- C1 amended: with an error pending and the parser inside a line (not at
end-of-line, so no refill can occur), `accept`, `Expect` and
`ReadSearchKey` return their zero values with the state identically
unchanged; `ReadAtom`, `ReadInt`, `ReadQuotedString` and `ReadString`
return their zero values without moving the cursor and with the error
slot still occupied (`ensure` may swap the pending error for
line-too-short, and the quoted-string reader for a type mismatch, but
never clears it); the explicit clearing mechanism `DiscardLine` resets
the error and returns to end-of-line.  At end-of-line the invariant
fails, see the C1 counterexample. -/
theorem C1_amended (p : Parser) (s extra : List Char) (fuel : Nat)
    (herr : p.err.isSome = true) (heol : p.isEOL = false) :
    p.accept s = (false, p) ∧
    p.Expect s = p ∧
    Parser.ReadSearchKey (fuel + 1) p = (none, p) ∧
    ((p.ReadAtomWithExtra extra).1 = [] ∧ (p.ReadAtomWithExtra extra).2.pos = p.pos ∧
      (p.ReadAtomWithExtra extra).2.err.isSome = true) ∧
    ((Parser.ReadInt p).1 = 0 ∧ (Parser.ReadInt p).2.pos = p.pos ∧
      (Parser.ReadInt p).2.err.isSome = true) ∧
    ((Parser.ReadQuotedString p).1 = [] ∧ (Parser.ReadQuotedString p).2.pos = p.pos ∧
      (Parser.ReadQuotedString p).2.err.isSome = true) ∧
    ((p.ReadStringWithExtra extra).1 = [] ∧ (p.ReadStringWithExtra extra).2.pos = p.pos ∧
      (p.ReadStringWithExtra extra).2.err.isSome = true) ∧
    p.DiscardLine = { p with err := none, isEOL := true } := by
  obtain ⟨he1, hp1, ho1, ht1⟩ := ensure_sticky p 1 heol herr
  refine ⟨?_, ?_, ?_, ?_, ?_, ?_, ?_, rfl⟩
  · simp [Parser.accept, herr]
  · simp [Parser.Expect, herr]
  · simp only [Parser.ReadSearchKey]
    rw [if_pos herr]
  · simp only [Parser.ReadAtomWithExtra]
    rw [if_pos he1]
    exact ⟨rfl, hp1, he1⟩
  · simp only [Parser.ReadInt]
    rw [if_pos he1]
    exact ⟨rfl, hp1, he1⟩
  · obtain ⟨he2, hp2, ho2, ht2⟩ := ensure_sticky (p.ensure 1) 2 ho1 he1
    simp only [Parser.ReadQuotedString, Parser.Peek]
    by_cases hc : (p.ensure 1).Tail.headD (Char.ofNat 0) ≠ '"'
    · rw [if_pos hc]
      exact ⟨rfl, hp1, rfl⟩
    · rw [if_neg hc, if_pos he2]
      refine ⟨rfl, ?_, he2⟩
      rw [hp2, hp1]
  · simp only [Parser.ReadStringWithExtra, Parser.Peek]
    rw [if_pos he1]
    exact ⟨rfl, hp1, he1⟩

/-- Instance of the amended C1 theorem at a mid-line state with a pending
end-of-file error: `accept` refuses and returns the state untouched, and
`ReadAtom` yields the empty atom. -/
theorem C1_amended_witness :
    Parser.accept { mkP "abc \r\n" with err := some PErr.eofErr } ['x'] =
      (false, { mkP "abc \r\n" with err := some PErr.eofErr }) ∧
    (Parser.ReadAtom { mkP "abc \r\n" with err := some PErr.eofErr }).1 = [] := by
  have h := C1_amended { mkP "abc \r\n" with err := some PErr.eofErr } ['x'] [] 0 rfl rfl
  exact ⟨h.1, h.2.2.2.1.1⟩

end GoImap
